import Mathlib

set_option linter.unusedVariables false

/-!
Shallow embedding of the tiny expression-to-LLVM-IR compiler in
src/tiny_comp/tiny_compiler.py, together with proofs about the claims of
the specification.  Python machine integers are unbounded, so `Nat`/`Int`
model them directly; Python exceptions are modelled by `Except PyExc`
where `PyExc` records the exception class name and message (the program
only ever raises the built-in `SyntaxError`, plus `ValueError` branches
that are unreachable for parser-produced ASTs and are covered here by
exhaustive pattern matches over the closed AST type).
-/

/-- A raised Python exception: the exception class name and its message. -/
structure PyExc where
  cls : String
  msg : String
deriving DecidableEq

/-- Helper building the `SyntaxError` exceptions the compiler raises. -/
def synExc (msg : String) : PyExc := ⟨"SyntaxError", msg⟩

/-- Error produced when the fuel of the fuel-indexed parser runs out; Python
would raise `RecursionError` at its recursion limit.  The initial fuel chosen
in `Parser.parse` is proved large enough that this never happens on
grammar-derivable input. -/
def recExc : PyExc := ⟨"RecursionError", "maximum recursion depth exceeded"⟩

/-- Tokens of the lexer (class `Token` with its `type` string and optional
`value`; the only token carrying a value is `NUMBER`). -/
inductive Token where
  | NUMBER (value : Nat)
  | PLUS
  | MINUS
  | MUL
  | DIV
  | LPAREN
  | RPAREN
  | EOF
deriving DecidableEq

/-- The `type` string of a token, as stored in `Token.type` in the source. -/
def Token.type : Token → String
  | .NUMBER _ => "NUMBER"
  | .PLUS => "PLUS"
  | .MINUS => "MINUS"
  | .MUL => "MUL"
  | .DIV => "DIV"
  | .LPAREN => "LPAREN"
  | .RPAREN => "RPAREN"
  | .EOF => "EOF"

/-- Python `repr` of a token, `Token({type}, {value})`, used in parser error
messages. -/
def Token.reprStr : Token → String
  | .NUMBER v => "Token(NUMBER, " ++ Nat.repr v ++ ")"
  | .PLUS => "Token(PLUS, None)"
  | .MINUS => "Token(MINUS, None)"
  | .MUL => "Token(MUL, None)"
  | .DIV => "Token(DIV, None)"
  | .LPAREN => "Token(LPAREN, None)"
  | .RPAREN => "Token(RPAREN, None)"
  | .EOF => "Token(EOF, None)"

/-- Lexer state: the input text and the scan position.  The Python object
also caches `self.current`, which is always `text[pos]` when `pos < len`
and `None` otherwise; here it is the derived function `Lexer.current`. -/
structure Lexer where
  text : List Char
  pos : Nat
deriving DecidableEq

/-- Initial lexer state over an input string (`Lexer.__init__`). -/
def Lexer.mkInit (text : String) : Lexer := ⟨text.data, 0⟩

/-- The current character (`self.current`): `text[pos]` or `None`. -/
def Lexer.current (l : Lexer) : Option Char := l.text[l.pos]?

/-- `Lexer.advance`: step the position by one. -/
def Lexer.advance (l : Lexer) : Lexer := ⟨l.text, l.pos + 1⟩

/-- Python `str.isspace` restricted to the ASCII whitespace characters
(the only ones relevant to this compiler's inputs). -/
def pyIsSpace (c : Char) : Bool :=
  c == ' ' || c == '\t' || c == '\n' || c == '\r' || c == '\x0b' || c == '\x0c'

/-- Fuel-indexed body of the `skip_ws` loop. -/
def Lexer.skipWsF : Nat → Lexer → Lexer
  | 0, l => l
  | fuel+1, l =>
    match l.current with
    | some c => if pyIsSpace c then Lexer.skipWsF fuel l.advance else l
    | none => l

/-- `Lexer.skip_ws`: advance while the current character is whitespace.
The fuel `text.length + 1` is always sufficient (each step moves `pos`
forward and the loop stops once `pos` reaches the end). -/
def Lexer.skip_ws (l : Lexer) : Lexer := Lexer.skipWsF (l.text.length + 1) l

/-- Fuel-indexed body of the digit-scanning loop of `Lexer.integer`;
`acc` is the base-10 value of the digits consumed so far (Python collects
the digit characters in a string `s` and finally applies `int(s)`, whose
value is exactly this left fold). -/
def Lexer.intF : Nat → Lexer → Nat → Nat × Lexer
  | 0, l, acc => (acc, l)
  | fuel+1, l, acc =>
    match l.current with
    | some c =>
      if c.isDigit then Lexer.intF fuel l.advance (acc * 10 + (c.toNat - Char.toNat '0'))
      else (acc, l)
    | none => (acc, l)

/-- `Lexer.integer`: maximal-munch scan of a digit run, returning its
base-10 value. -/
def Lexer.integer (l : Lexer) : Nat × Lexer := Lexer.intF (l.text.length + 1) l 0

/-- `Lexer.get_next_token`: skip whitespace, then produce one token, or
raise `SyntaxError("Unexpected character: ...")` on any unknown character. -/
def Lexer.get_next_token (l : Lexer) : Except PyExc (Token × Lexer) :=
  let l1 := l.skip_ws
  match l1.current with
  | none => .ok (.EOF, l1)
  | some c =>
    if c.isDigit then
      let p := l1.integer
      .ok (.NUMBER p.1, p.2)
    else if c = '+' then .ok (.PLUS, l1.advance)
    else if c = '-' then .ok (.MINUS, l1.advance)
    else if c = '*' then .ok (.MUL, l1.advance)
    else if c = '/' then .ok (.DIV, l1.advance)
    else if c = '(' then .ok (.LPAREN, l1.advance)
    else if c = ')' then .ok (.RPAREN, l1.advance)
    else .error (synExc ("Unexpected character: " ++ c.toString))

/-- Unary operator tags (`'PLUS'`/`'MINUS'` strings in the source). -/
inductive UOp where
  | PLUS
  | MINUS
deriving DecidableEq

/-- Binary operator tags (`'PLUS'`/`'MINUS'`/`'MUL'`/`'DIV'` strings in the
source). -/
inductive BOp where
  | PLUS
  | MINUS
  | MUL
  | DIV
deriving DecidableEq

/-- The AST: `Number`, `BinOp`, `UnaryOp` classes of the source.  The
number value is a `Nat` because the lexer only produces non-negative
integers. -/
inductive AST where
  | Number (value : Nat)
  | BinOp (op : BOp) (left right : AST)
  | UnaryOp (op : UOp) (expr : AST)
deriving DecidableEq

/-- Parser state: the lexer plus the one-token lookahead `self.current`. -/
structure Parser where
  lexer : Lexer
  current : Token
deriving DecidableEq

/-- `Parser.__init__`: build the lexer and pull the first token (which may
already raise a lex error). -/
def Parser.mkInit (text : String) : Except PyExc Parser :=
  match Lexer.get_next_token (Lexer.mkInit text) with
  | .error e => .error e
  | .ok (t, l) => .ok ⟨l, t⟩

/-- `Parser.eat`: check the lookahead token's type and pull the next token,
or raise `SyntaxError("Expected token ..., got ...")`. -/
def Parser.eat (p : Parser) (t : String) : Except PyExc Parser :=
  if p.current.type = t then
    match Lexer.get_next_token p.lexer with
    | .error e => .error e
    | .ok (tok, l) => .ok ⟨l, tok⟩
  else .error (synExc ("Expected token " ++ t ++ ", got " ++ p.current.reprStr))

mutual

/-- `Parser.factor`: `factor := NUMBER | '(' expr ')' | ('+'|'-') factor`,
fuel-indexed. -/
def Parser.factor : Nat → Parser → Except PyExc (AST × Parser)
  | 0, _ => .error recExc
  | fuel+1, p =>
    match p.current with
    | .PLUS =>
      match p.eat ("PLUS") with
      | .error e => .error e
      | .ok p1 =>
        match Parser.factor fuel p1 with
        | .error e => .error e
        | .ok (e1, p2) => .ok (.UnaryOp .PLUS e1, p2)
    | .MINUS =>
      match p.eat ("MINUS") with
      | .error e => .error e
      | .ok p1 =>
        match Parser.factor fuel p1 with
        | .error e => .error e
        | .ok (e1, p2) => .ok (.UnaryOp .MINUS e1, p2)
    | .NUMBER v =>
      match p.eat ("NUMBER") with
      | .error e => .error e
      | .ok p1 => .ok (.Number v, p1)
    | .LPAREN =>
      match p.eat ("LPAREN") with
      | .error e => .error e
      | .ok p1 =>
        match Parser.expr fuel p1 with
        | .error e => .error e
        | .ok (node, p2) =>
          match p2.eat ("RPAREN") with
          | .error e => .error e
          | .ok p3 => .ok (node, p3)
    | tok => .error (synExc ("Unexpected token: " ++ tok.reprStr))

/-- `Parser.term`: parse one factor, then the `(('*'|'/') factor)*` loop. -/
def Parser.term : Nat → Parser → Except PyExc (AST × Parser)
  | 0, _ => .error recExc
  | fuel+1, p =>
    match Parser.factor fuel p with
    | .error e => .error e
    | .ok (node, p1) => Parser.termLoop fuel node p1

/-- The `while self.current.type in ('MUL', 'DIV')` loop of `Parser.term`,
with the accumulated left operand `node`. -/
def Parser.termLoop : Nat → AST → Parser → Except PyExc (AST × Parser)
  | 0, _, _ => .error recExc
  | fuel+1, node, p =>
    match p.current with
    | .MUL =>
      match p.eat ("MUL") with
      | .error e => .error e
      | .ok p1 =>
        match Parser.factor fuel p1 with
        | .error e => .error e
        | .ok (rhs, p2) => Parser.termLoop fuel (.BinOp .MUL node rhs) p2
    | .DIV =>
      match p.eat ("DIV") with
      | .error e => .error e
      | .ok p1 =>
        match Parser.factor fuel p1 with
        | .error e => .error e
        | .ok (rhs, p2) => Parser.termLoop fuel (.BinOp .DIV node rhs) p2
    | _ => .ok (node, p)

/-- `Parser.expr`: parse one term, then the `(('+'|'-') term)*` loop. -/
def Parser.expr : Nat → Parser → Except PyExc (AST × Parser)
  | 0, _ => .error recExc
  | fuel+1, p =>
    match Parser.term fuel p with
    | .error e => .error e
    | .ok (node, p1) => Parser.exprLoop fuel node p1

/-- The `while self.current.type in ('PLUS', 'MINUS')` loop of
`Parser.expr`, with the accumulated left operand `node`. -/
def Parser.exprLoop : Nat → AST → Parser → Except PyExc (AST × Parser)
  | 0, _, _ => .error recExc
  | fuel+1, node, p =>
    match p.current with
    | .PLUS =>
      match p.eat ("PLUS") with
      | .error e => .error e
      | .ok p1 =>
        match Parser.term fuel p1 with
        | .error e => .error e
        | .ok (rhs, p2) => Parser.exprLoop fuel (.BinOp .PLUS node rhs) p2
    | .MINUS =>
      match p.eat ("MINUS") with
      | .error e => .error e
      | .ok p1 =>
        match Parser.term fuel p1 with
        | .error e => .error e
        | .ok (rhs, p2) => Parser.exprLoop fuel (.BinOp .MINUS node rhs) p2
    | _ => .ok (node, p)

end

/-- Initial fuel for one parse; proved sufficient for every
grammar-derivable input (and for the concrete error cases considered). -/
def parseFuel (text : String) : Nat := 5 * text.length + 8

/-- `Parser.parse`: parse a whole expression and require `EOF` afterwards,
else raise `SyntaxError("Trailing input after expression")`. -/
def Parser.parse (text : String) : Except PyExc AST :=
  match Parser.mkInit text with
  | .error e => .error e
  | .ok p =>
    match Parser.expr (parseFuel text) p with
    | .error e => .error e
    | .ok (node, p1) =>
      if p1.current.type = "EOF" then .ok node
      else .error (synExc ("Trailing input after expression"))

/-- The value representation during code generation: Python uses a string
that is either the decimal literal of an integer (an immediate) or a
register name `%t<N>`; `Val.render` recovers exactly that string. -/
inductive Val where
  | imm (i : Int)
  | reg (n : Nat)
deriving DecidableEq

/-- The string the Python generator passes around for a value:
`str(i)` for immediates, `f"%t{n}"` for registers. -/
def Val.render : Val → String
  | .imm i => Int.repr i
  | .reg n => "%t" ++ Nat.repr n

/-- One emitted body instruction `  {r} = {op} i64 {a}, {b}`; the source
stores the rendered string, recovered exactly by `Instr.render`. -/
structure Instr where
  r : Nat
  op : String
  a : Val
  b : Val
deriving DecidableEq

/-- The exact text line the source appends to `self.lines`. -/
def Instr.render (ins : Instr) : String :=
  "  %t" ++ Nat.repr ins.r ++ " = " ++ ins.op ++ " i64 " ++ ins.a.render ++ ", " ++ ins.b.render

/-- Code generator state: the emitted body lines and the register counter. -/
structure IRGen where
  lines : List Instr
  reg : Nat
deriving DecidableEq

/-- `IRGen.newreg`: bump the counter and return the fresh register number
(the source returns the string `%t{reg}`). -/
def IRGen.newreg (s : IRGen) : Nat × IRGen := (s.reg + 1, ⟨s.lines, s.reg + 1⟩)

/-- `IRGen.emit_bin`: allocate a register, append one instruction, return
the register as the value. -/
def IRGen.emit_bin (s : IRGen) (op : String) (a b : Val) : Val × IRGen :=
  let p := s.newreg
  (Val.reg p.1, ⟨p.2.lines ++ [⟨p.1, op, a, b⟩], p.2.reg⟩)

/-- The `opmap` dictionary of `IRGen.gen`. -/
def opmap : BOp → String
  | .PLUS => "add"
  | .MINUS => "sub"
  | .MUL => "mul"
  | .DIV => "sdiv"

/-- `IRGen.gen`: post-order code generation.  A `Number` becomes the
immediate `str(value)`; unary `+` returns the operand's value unchanged;
unary `-` folds an immediate (`str(-int(v))`, guarded in the source by the
string test `v.lstrip('-').isdigit()`, see `pyImmTest_render`) and emits
`sub 0, v` on a register; every `BinOp` emits one instruction via `opmap`.
The `ValueError` branches of the source guard `isinstance` dispatch and
are unreachable over this closed AST type. -/
def IRGen.gen : AST → IRGen → Val × IRGen
  | .Number v, s => (.imm (v : Int), s)
  | .UnaryOp .PLUS e, s => IRGen.gen e s
  | .UnaryOp .MINUS e, s =>
    match IRGen.gen e s with
    | (.imm i, s1) => (.imm (-i), s1)
    | (.reg n, s1) => s1.emit_bin ("sub") (.imm 0) (.reg n)
  | .BinOp op l r, s =>
    let al := IRGen.gen l s
    let br := IRGen.gen r al.2
    br.2.emit_bin (opmap op) al.1 br.1

/-- Signed 32-bit range test of `build_module`:
`val < -2**31 or val >= 2**31`. -/
def wideImm (i : Int) : Bool := decide (i < -(2^31)) || decide (2^31 ≤ i)

/-- Module header comment line. -/
def modHeader : String := "; ModuleID = \x27tinyexpr\x27"

/-- The `printf` declaration line (with its trailing newline, exactly as in
the source). -/
def printfDecl : String := "declare i32 @printf(i8*, ...)\n"

/-- The format-string constant line (with its trailing newline). -/
def fmtDecl : String := "@.fmt = private unnamed_addr constant [6 x i8] c\"%lld\\0A\\00\"\n"

/-- The `define i32 @main() {` line. -/
def mainOpen : String := "define i32 @main() \x7b"

/-- The `entry:` label line. -/
def entryLabel : String := "entry:"

/-- The `getelementptr` line computing the format string pointer. -/
def fmtptrLine : String :=
  "  %fmtptr = getelementptr inbounds [6 x i8], [6 x i8]* @.fmt, i64 0, i64 0"

/-- The `printf` call line for a final value. -/
def callLine (v : Val) : String :=
  "  call i32 (i8*, ...) @printf(i8* %fmtptr, i64 " ++ v.render ++ ")"

/-- `IRGen.build_module`, before the final `'\n'.join`: the list `out` of
output lines.  The immediate-vs-register dispatch on `result_val` mirrors
the source's string test `result_val.lstrip('-').isdigit()` (see
`pyImmTest_render`). -/
def IRGen.build_module_out (print_result : Bool) (expr_ast : AST) : List String :=
  let g := IRGen.gen expr_ast ⟨[], 0⟩
  let result_val := g.1
  let s := g.2
  let out0 : List String := [modHeader]
  let out1 := out0 ++ (if print_result then [printfDecl, fmtDecl] else [])
  let out2 := out1 ++ [mainOpen, entryLabel] ++ s.lines.map Instr.render
  let out3 := out2 ++
    (if print_result then
      [fmtptrLine, callLine result_val, "  ret i32 0"]
    else
      match result_val with
      | .imm i =>
        if wideImm i then
          let n1 := s.newreg
          let n2 := n1.2.newreg
          ["  %t" ++ Nat.repr n1.1 ++ " = add i64 0, " ++ Int.repr i,
           "  %t" ++ Nat.repr n2.1 ++ " = trunc i64 %t" ++ Nat.repr n1.1 ++ " to i32",
           "  ret i32 %t" ++ Nat.repr n2.1]
        else
          ["  ret i32 " ++ Int.repr i]
      | .reg n =>
        let n1 := s.newreg
        ["  %t" ++ Nat.repr n1.1 ++ " = trunc i64 " ++ Val.render (.reg n) ++ " to i32",
         "  ret i32 %t" ++ Nat.repr n1.1])
  out3 ++ ["\x7d"]

/-- `IRGen.build_module`: the joined module text. -/
def IRGen.build_module (print_result : Bool) (expr_ast : AST) : String :=
  String.intercalate "\n" (IRGen.build_module_out print_result expr_ast)

/-- `compile_to_ir`: the public pipeline entry point. -/
def compile_to_ir (expr_text : String) (print_result : Bool) : Except PyExc String :=
  match Parser.parse expr_text with
  | .error e => .error e
  | .ok ast => .ok (IRGen.build_module print_result ast)

/-- Whether a generator value is an immediate.  In the source this is
decided by the string test `v.lstrip('-').isdigit()`; the lemma
`pyImmTest_render` proves that test equivalent to this constructor test on
every string the generator passes around. -/
def Val.isImm : Val → Bool
  | .imm _ => true
  | .reg _ => false

/-- Python `str.isdigit`: non-empty and all characters decimal digits
(ASCII fragment, the only characters these strings contain). -/
def pyIsdigit (s : String) : Bool := !s.data.isEmpty && s.data.all Char.isDigit

/-- Python `str.lstrip('-')`: drop every leading `'-'`. -/
def pyLstripMinus (s : String) : String := ⟨s.data.dropWhile (fun c => c == '-')⟩

/-- The source's immediate test `v.lstrip('-').isdigit()`. -/
def pyImmTest (s : String) : Bool := pyIsdigit (pyLstripMinus s)

/-- Modelled from the spec: the emitted IR is executed by an external
backend toolchain (out of scope of src/); `i64` arithmetic wraps at 64
bits, two's complement. -/
def wrap64 (x : Int) : Int := (x + 2^63) % 2^64 - 2^63

/-- Modelled from the spec: `trunc .. to i32` keeps the low 32 bits and
reinterprets them as a signed 32-bit value (two's-complement wraparound). -/
def trunc32 (x : Int) : Int :=
  let m := x % 2^32
  if m < 2^31 then m else m - 2^32

/-- Modelled from the spec: semantics of one binary IR opcode on `i64`
(`sdiv` is signed division truncating toward zero; division by zero is a
runtime fault, left as the total-function default here). -/
def evalOp (op : String) (a b : Int) : Int :=
  if op = "add" then wrap64 (a + b)
  else if op = "sub" then wrap64 (a - b)
  else if op = "mul" then wrap64 (a * b)
  else if op = "sdiv" then wrap64 (Int.tdiv a b)
  else 0

/-- The value of an operand under a register environment. -/
def Val.evalIn (env : Nat → Int) : Val → Int
  | .imm i => i
  | .reg n => env n

/-- Modelled from the spec: run the emitted body instructions in order,
updating the register environment. -/
def runLines : List Instr → (Nat → Int) → Nat → Int
  | [], env => env
  | ins :: rest, env =>
    runLines rest (fun n => if n = ins.r then evalOp ins.op (ins.a.evalIn env) (ins.b.evalIn env) else env n)

/-- The all-zero initial register environment. -/
def initEnv : Nat → Int := fun _ => 0

/-- Modelled from the spec: the 64-bit value the compiled module computes
(the value printed in print mode and narrowed in exit-code mode). -/
def resultValue (expr_ast : AST) : Int :=
  let g := IRGen.gen expr_ast ⟨[], 0⟩
  g.1.evalIn (runLines g.2.lines initEnv)

/-- Modelled from the spec: the 32-bit process exit code the module built
in exit-code mode returns, following the emitted return path
(`ret i32 <literal>`, or the materialize-then-`trunc` sequence, or the
`trunc` of a register). -/
def exitValue (expr_ast : AST) : Int :=
  let g := IRGen.gen expr_ast ⟨[], 0⟩
  let env := runLines g.2.lines initEnv
  match g.1 with
  | .imm i => if wideImm i then trunc32 (wrap64 (0 + i)) else i
  | .reg n => trunc32 (env n)

/-- Whether `IRGen.gen` returns an immediate for this AST: numbers do,
unary nodes pass the property of their operand through (folding keeps
immediates), and every binary node returns a register. -/
def AST.isImmRes : AST → Bool
  | .Number _ => true
  | .UnaryOp _ e => e.isImmRes
  | .BinOp _ _ _ => false

/-- Number of `BinOp` nodes in an AST. -/
def AST.countBin : AST → Nat
  | .Number _ => 0
  | .UnaryOp _ e => e.countBin
  | .BinOp _ l r => l.countBin + r.countBin + 1

/-- Number of unary-minus nodes whose operand evaluates to a register
reference. -/
def AST.countMinusReg : AST → Nat
  | .Number _ => 0
  | .UnaryOp .PLUS e => e.countMinusReg
  | .UnaryOp .MINUS e => e.countMinusReg + (if e.isImmRes then 0 else 1)
  | .BinOp _ l r => l.countMinusReg + r.countMinusReg

/-- An operand only references registers in `1..k`. -/
def opndLe : Val → Nat → Prop
  | .reg n, k => 1 ≤ n ∧ n ≤ k
  | .imm _, _ => True

/-- Well-formed instruction list starting after `base` already-emitted
instructions: the i-th instruction defines register `base + i + 1` and its
operands only reference registers defined before it. -/
def linesOk : List Instr → Nat → Prop
  | [], _ => True
  | ins :: rest, base => ins.r = base + 1 ∧ opndLe ins.a base ∧ opndLe ins.b base ∧ linesOk rest (base + 1)

/-- Every register operand is defined by an earlier instruction of the
list (no forward references). -/
def DefBeforeUse (lines : List Instr) : Prop :=
  ∀ (i : Nat) (h : i < lines.length) (n : Nat),
    ((lines.get ⟨i, h⟩).a = .reg n ∨ (lines.get ⟨i, h⟩).b = .reg n) →
    ∃ (j : Nat) (hj : j < lines.length), j < i ∧ (lines.get ⟨j, hj⟩).r = n

/-- How a maximal run of `get_next_token` calls ends. -/
inductive LexEnd where
  | eof
  | err (e : PyExc)
  | fuelOut
deriving DecidableEq

/-- Fuel-indexed iteration of `get_next_token`: the tokens produced before
the first `EOF` (or error). -/
def lexRunF : Nat → Lexer → List Token × LexEnd
  | 0, _ => ([], .fuelOut)
  | fuel+1, l =>
    match l.get_next_token with
    | .error e => ([], .err e)
    | .ok (.EOF, _) => ([], .eof)
    | .ok (t, l1) =>
      let p := lexRunF fuel l1
      (t :: p.1, p.2)

/-- The whole token sequence of an input (fuel `length + 1` is proved
sufficient). -/
def lexAll (text : String) : List Token × LexEnd :=
  lexRunF (text.length + 1) (Lexer.mkInit text)

/-- The lexer at `l` produces exactly the tokens `ts` and then `EOF`. -/
inductive LexStream : Lexer → List Token → Prop where
  | nil {l l1 : Lexer} : l.get_next_token = .ok (.EOF, l1) → LexStream l []
  | cons {l l1 : Lexer} {t : Token} {ts : List Token} :
      l.get_next_token = .ok (t, l1) → t ≠ .EOF → LexStream l1 ts → LexStream l (t :: ts)

/-- The parser state `p` (lookahead plus lexer) has exactly the remaining
token sequence `ts` before `EOF`. -/
def Streams (p : Parser) : List Token → Prop
  | [] => p.current = .EOF
  | t :: rest => p.current = t ∧ LexStream p.lexer rest

/-- The continuation does not begin with `'*'` or `'/'` (so the `term`
loop stops). -/
def notMulDiv : List Token → Prop
  | [] => True
  | t :: _ => t ≠ .MUL ∧ t ≠ .DIV

/-- The continuation does not begin with any binary operator token (so
both loops stop). -/
def notAnyOp : List Token → Prop
  | [] => True
  | t :: _ => t ≠ .PLUS ∧ t ≠ .MINUS ∧ t ≠ .MUL ∧ t ≠ .DIV

mutual

/-- Derivations of the grammar production
`factor := NUMBER | '(' expr ')' | ('+'|'-') factor` over token lists. -/
inductive FactorD : List Token → Type where
  | num (v : Nat) : FactorD [Token.NUMBER v]
  | paren {ts : List Token} : ExprD ts → FactorD ([Token.LPAREN] ++ ts ++ [Token.RPAREN])
  | uplus {ts : List Token} : FactorD ts → FactorD (Token.PLUS :: ts)
  | uminus {ts : List Token} : FactorD ts → FactorD (Token.MINUS :: ts)

/-- Derivations of the iterated part `(('*'|'/') factor)*` of `term`. -/
inductive TermRest : List Token → Type where
  | nil : TermRest []
  | mul {ts tss : List Token} : FactorD ts → TermRest tss → TermRest (Token.MUL :: ts ++ tss)
  | div {ts tss : List Token} : FactorD ts → TermRest tss → TermRest (Token.DIV :: ts ++ tss)

/-- Derivations of `term := factor (('*'|'/') factor)*`. -/
inductive TermD : List Token → Type where
  | mk {ts tss : List Token} : FactorD ts → TermRest tss → TermD (ts ++ tss)

/-- Derivations of the iterated part `(('+'|'-') term)*` of `expr`. -/
inductive ExprRest : List Token → Type where
  | nil : ExprRest []
  | plus {ts tss : List Token} : TermD ts → ExprRest tss → ExprRest (Token.PLUS :: ts ++ tss)
  | minus {ts tss : List Token} : TermD ts → ExprRest tss → ExprRest (Token.MINUS :: ts ++ tss)

/-- Derivations of `expr := term (('+'|'-') term)*`. -/
inductive ExprD : List Token → Type where
  | mk {ts tss : List Token} : TermD ts → ExprRest tss → ExprD (ts ++ tss)

end

mutual

/-- Fuel needed by `Parser.factor` on this derivation. -/
def FactorD.size : {ts : List Token} → FactorD ts → Nat
  | _, .num _ => 1
  | _, .paren d => d.size + 1
  | _, .uplus d => d.size + 1
  | _, .uminus d => d.size + 1

/-- Fuel needed by `Parser.termLoop` on this derivation. -/
def TermRest.size : {ts : List Token} → TermRest ts → Nat
  | _, .nil => 1
  | _, .mul f r => f.size + r.size + 1
  | _, .div f r => f.size + r.size + 1

/-- Fuel needed by `Parser.term` on this derivation. -/
def TermD.size : {ts : List Token} → TermD ts → Nat
  | _, .mk f r => f.size + r.size + 1

/-- Fuel needed by `Parser.exprLoop` on this derivation. -/
def ExprRest.size : {ts : List Token} → ExprRest ts → Nat
  | _, .nil => 1
  | _, .plus t r => t.size + r.size + 1
  | _, .minus t r => t.size + r.size + 1

/-- Fuel needed by `Parser.expr` on this derivation. -/
def ExprD.size : {ts : List Token} → ExprD ts → Nat
  | _, .mk t r => t.size + r.size + 1

end

/-- A syntactically valid input: its token sequence derives `expr` with no
trailing tokens before `EOF`. -/
def ValidExpr (text : String) : Prop :=
  ∃ ts : List Token, Nonempty (ExprD ts) ∧
    ∃ p0 : Parser, Parser.mkInit text = .ok p0 ∧ Streams p0 ts

/-! Theorems.  First the characterization of the decimal strings involved
in the generator's immediate test, then the claims. -/

lemma digitChar_isDigit : ∀ m, m < 10 → (Nat.digitChar m).isDigit = true := by decide

lemma toDigitsCore_append (f n : Nat) (acc : List Char) :
    ∃ l, Nat.toDigitsCore 10 f n acc = l ++ acc := by
  induction f generalizing n acc with
  | zero => exact ⟨[], rfl⟩
  | succ f ih =>
    simp only [Nat.toDigitsCore]
    split
    · exact ⟨[Nat.digitChar (n % 10)], rfl⟩
    · obtain ⟨l, hl⟩ := ih (n / 10) (Nat.digitChar (n % 10) :: acc)
      exact ⟨l ++ [Nat.digitChar (n % 10)], by simp [hl]⟩

lemma toDigitsCore_digits (f n : Nat) (acc : List Char)
    (hacc : ∀ c ∈ acc, c.isDigit = true) :
    ∀ c ∈ Nat.toDigitsCore 10 f n acc, c.isDigit = true := by
  induction f generalizing n acc with
  | zero => exact hacc
  | succ f ih =>
    simp only [Nat.toDigitsCore]
    split
    · intro c hc
      rcases List.mem_cons.mp hc with h | h
      · subst h; exact digitChar_isDigit _ (Nat.mod_lt _ (by norm_num))
      · exact hacc c h
    · refine ih (n / 10) (Nat.digitChar (n % 10) :: acc) ?_
      intro c hc
      rcases List.mem_cons.mp hc with h | h
      · subst h; exact digitChar_isDigit _ (Nat.mod_lt _ (by norm_num))
      · exact hacc c h

lemma natRepr_data_digits (n : Nat) : ∀ c ∈ (Nat.repr n).data, c.isDigit = true := by
  have h : (Nat.repr n).data = Nat.toDigitsCore 10 (n+1) n [] := rfl
  rw [h]
  exact toDigitsCore_digits _ _ _ (by simp)

lemma natRepr_data_ne_nil (n : Nat) : (Nat.repr n).data ≠ [] := by
  have h : (Nat.repr n).data = Nat.toDigitsCore 10 (n+1) n [] := rfl
  rw [h]
  simp only [Nat.toDigitsCore]
  split
  · simp
  · obtain ⟨l, hl⟩ := toDigitsCore_append n (n / 10) (Nat.digitChar (n % 10) :: [])
    rw [hl]; simp

lemma dropWhile_minus_of_digits (l : List Char) (hne : l ≠ [])
    (hd : ∀ c ∈ l, c.isDigit = true) : l.dropWhile (fun c => c == '-') = l := by
  cases l with
  | nil => simp at hne
  | cons a l =>
    rw [List.dropWhile_cons]
    have ha : a.isDigit = true := hd a (by simp)
    have hne2 : (a == '-') = false := by
      revert ha
      simp [Char.isDigit, Char.le_def, Char.lt_def, beq_iff_eq]
      intro h1 h2 hc
      subst hc
      simp_all
    simp [hne2]

/-- The source's string test `v.lstrip('-').isdigit()` on a rendered value
is exactly the immediate/register distinction: it justifies embedding the
branches of `IRGen.gen` and `IRGen.build_module` as a match on `Val`. -/
lemma pyImmTest_render (v : Val) : pyImmTest v.render = v.isImm := by
  cases v with
  | imm i =>
    cases i with
    | ofNat m =>
      have hrepr : (Val.render (.imm (Int.ofNat m))) = Nat.repr m := rfl
      rw [hrepr]
      simp only [pyImmTest, pyLstripMinus, pyIsdigit]
      rw [dropWhile_minus_of_digits _ (natRepr_data_ne_nil m) (natRepr_data_digits m)]
      simp [Val.isImm, List.all_eq_true, natRepr_data_ne_nil m]
      exact natRepr_data_digits m
    | negSucc m =>
      have hrepr : (Val.render (.imm (Int.negSucc m))).data = '-' :: (Nat.repr (m+1)).data := by
        show (Int.repr (Int.negSucc m)).data = _
        show (((("-") : String) ++ Nat.repr (m+1)) : String).data = _
        rw [String.data_append]
        rfl
      simp only [pyImmTest, pyLstripMinus, pyIsdigit, hrepr]
      rw [List.dropWhile_cons]
      norm_num
      rw [dropWhile_minus_of_digits _ (natRepr_data_ne_nil (m+1)) (natRepr_data_digits (m+1))]
      simp [Val.isImm, List.all_eq_true, natRepr_data_ne_nil (m+1)]
      exact natRepr_data_digits (m+1)
  | reg n =>
    have hrepr : (Val.render (.reg n)).data = '%' :: 't' :: (Nat.repr n).data := by
      show ((("%t") : String) ++ Nat.repr n).data = _
      rw [String.data_append]
      rfl
    simp only [pyImmTest, pyLstripMinus, pyIsdigit, hrepr]
    rw [List.dropWhile_cons]
    norm_num
    simp [Val.isImm]

/-- Claim C1, counterexample: on `"1+2&3"` the compiler does fail naming
`'&'`, but the exception raised by the lexer is the same `SyntaxError`
class the parser uses for grammar errors — there is no distinct `LexError`
kind — and its message carries only the character, not its position. -/
theorem C1_counterexample :
    compile_to_ir ("1+2&3") true = .error (⟨"SyntaxError", "Unexpected character: &"⟩ : PyExc) ∧
    (⟨"SyntaxError", "Unexpected character: &"⟩ : PyExc).cls ≠ "LexError" := by
  constructor
  · rfl
  · decide

/-- Claim C1, amended: on any input whose next non-whitespace character is
not a digit, an operator or a parenthesis, the lexer raises a
`SyntaxError` (the same exception class as grammar errors, not a distinct
`LexError`) whose message names the offending character (and carries no
position); in particular `compile("1+2&3")` fails with
`SyntaxError("Unexpected character: &")`. -/
theorem C1_amended :
    (∀ (l : Lexer) (c : Char), (l.skip_ws).current = some c →
      c.isDigit = false → ¬(c = '+') → ¬(c = '-') → ¬(c = '*') → ¬(c = '/') →
      ¬(c = '(') → ¬(c = ')') →
      l.get_next_token = .error (synExc ("Unexpected character: " ++ c.toString))) ∧
    compile_to_ir ("1+2&3") true = .error (synExc ("Unexpected character: &")) := by
  constructor
  · intro l c hc hd h1 h2 h3 h4 h5 h6
    simp only [Lexer.get_next_token, hc, hd, h1, h2, h3, h4, h5, h6, if_false,
      Bool.false_eq_true, ite_false]
  · rfl

/-- Witness for the amended claim C1 at the concrete input consisting of
the single character `'&'`. -/
theorem C1_witness :
    Lexer.get_next_token ⟨['&'], 0⟩ = .error (synExc ("Unexpected character: &")) :=
  C1_amended.1 ⟨['&'], 0⟩ '&' (by rfl) (by rfl) (by decide) (by decide) (by decide)
    (by decide) (by decide) (by decide)

/-- Claim C3: `"1+2*3"` parses as `1 + (2*3)`; its generated body emits the
multiplication first (`%t1`) and feeds it as the right operand of the
addition (`%t2`), and the module computes `7`, never `9`; with explicit
parentheses `"(1+2)*3"` parses as `(1+2)*3` and computes `9`. -/
theorem C3 :
    Parser.parse ("1+2*3") =
      .ok (.BinOp .PLUS (.Number 1) (.BinOp .MUL (.Number 2) (.Number 3))) ∧
    IRGen.gen (.BinOp .PLUS (.Number 1) (.BinOp .MUL (.Number 2) (.Number 3))) ⟨[], 0⟩ =
      (.reg 2, ⟨[⟨1, "mul", .imm 2, .imm 3⟩, ⟨2, "add", .imm 1, .reg 1⟩], 2⟩) ∧
    resultValue (.BinOp .PLUS (.Number 1) (.BinOp .MUL (.Number 2) (.Number 3))) = 7 ∧
    Parser.parse ("(1+2)*3") =
      .ok (.BinOp .MUL (.BinOp .PLUS (.Number 1) (.Number 2)) (.Number 3)) ∧
    resultValue (.BinOp .MUL (.BinOp .PLUS (.Number 1) (.Number 2)) (.Number 3)) = 9 := by
  refine ⟨rfl, rfl, by decide, rfl, by decide⟩

/-- Claim C4: `--5` and `-(-5)` both parse to double unary minus over `5`,
which the generator folds to the immediate `5` emitting zero instructions;
unary plus always returns the operand's value representation unchanged;
unary minus on a register reference emits exactly the `sub 0, v`
instruction. -/
theorem C4 :
    Parser.parse ("--5") = .ok (.UnaryOp .MINUS (.UnaryOp .MINUS (.Number 5))) ∧
    Parser.parse ("-(-5)") = .ok (.UnaryOp .MINUS (.UnaryOp .MINUS (.Number 5))) ∧
    IRGen.gen (.UnaryOp .MINUS (.UnaryOp .MINUS (.Number 5))) ⟨[], 0⟩ = (.imm 5, ⟨[], 0⟩) ∧
    (∀ (e : AST) (s : IRGen), IRGen.gen (.UnaryOp .PLUS e) s = IRGen.gen e s) ∧
    (∀ (e : AST) (s s1 : IRGen) (n : Nat), IRGen.gen e s = (.reg n, s1) →
      IRGen.gen (.UnaryOp .MINUS e) s = s1.emit_bin ("sub") (.imm 0) (.reg n)) := by
  refine ⟨rfl, rfl, rfl, fun e s => rfl, fun e s s1 n h => ?_⟩
  simp only [IRGen.gen, h]

/-- Witness for claim C4 at a concrete register-valued operand: the operand
`1+2` generates register `%t1`, and unary minus on it emits `sub 0, %t1`. -/
theorem C4_witness :
    IRGen.gen (.UnaryOp .MINUS (.BinOp .PLUS (.Number 1) (.Number 2))) ⟨[], 0⟩ =
      IRGen.emit_bin ⟨[⟨1, "add", .imm 1, .imm 2⟩], 1⟩ ("sub") (.imm 0) (.reg 1) :=
  C4.2.2.2.2 (.BinOp .PLUS (.Number 1) (.Number 2)) ⟨[], 0⟩ ⟨[⟨1, "add", .imm 1, .imm 2⟩], 1⟩ 1 rfl

/-- Claim C7, counterexample: dangling input `"1+2 3"` (and likewise
`"1+2)"`) raises `SyntaxError("Trailing input after expression")`, a
message that carries no expected-versus-found token description (neither
an expected token kind nor the found token's rendering occurs in it). -/
theorem C7_counterexample :
    compile_to_ir ("1+2 3") true = .error (synExc ("Trailing input after expression")) ∧
    ¬ List.IsInfix (("Expected").data) (("Trailing input after expression").data) ∧
    ¬ List.IsInfix (("Token").data) (("Trailing input after expression").data) := by
  refine ⟨rfl, by decide, by decide⟩

/-- Claim C7, amended: each grammar violation aborts compilation at the
first error with a `SyntaxError` and no partial result: a dangling token
after a complete expression (`"1+2 3"`) and an unexpected `')'` after a
complete expression (`"1+2)"`) report `"Trailing input after expression"`
(no expected-versus-found description), while a missing `')'` (`"(1+2"`)
reports the expected-versus-found description
`"Expected token RPAREN, got Token(EOF, None)"`. -/
theorem C7_amended :
    compile_to_ir ("1+2 3") true = .error (synExc ("Trailing input after expression")) ∧
    compile_to_ir ("1+2 3") false = .error (synExc ("Trailing input after expression")) ∧
    compile_to_ir ("(1+2") true = .error (synExc ("Expected token RPAREN, got Token(EOF, None)")) ∧
    compile_to_ir ("(1+2") false = .error (synExc ("Expected token RPAREN, got Token(EOF, None)")) ∧
    compile_to_ir ("1+2)") true = .error (synExc ("Trailing input after expression")) ∧
    compile_to_ir ("1+2)") false = .error (synExc ("Trailing input after expression")) ∧
    (synExc ("Trailing input after expression")).cls = "SyntaxError" ∧
    (synExc ("Expected token RPAREN, got Token(EOF, None)")).cls = "SyntaxError" :=
  ⟨rfl, rfl, rfl, rfl, rfl, rfl, rfl, rfl⟩

/-! Lexer facts: the scan position never moves backwards, the input text is
never modified, a non-`EOF` token consumes at least one character, and the
end of input is absorbing. -/

lemma skipWsF_text (f : Nat) (l : Lexer) : (Lexer.skipWsF f l).text = l.text := by
  induction f generalizing l with
  | zero => rfl
  | succ f ih =>
    simp only [Lexer.skipWsF]
    cases hc : l.current with
    | none => rfl
    | some c =>
      by_cases hs : pyIsSpace c
      · simp only [hs, if_true, ih, Lexer.advance]
      · simp only [hs, Bool.false_eq_true, if_false]

lemma skipWsF_pos_le (f : Nat) (l : Lexer) : l.pos ≤ (Lexer.skipWsF f l).pos := by
  induction f generalizing l with
  | zero => exact Nat.le_refl _
  | succ f ih =>
    simp only [Lexer.skipWsF]
    cases hc : l.current with
    | none => exact Nat.le_refl _
    | some c =>
      by_cases hs : pyIsSpace c
      · simp only [hs, if_true]
        exact Nat.le_trans (Nat.le_succ _) (ih l.advance)
      · simp only [hs, Bool.false_eq_true, if_false]
        exact Nat.le_refl _

lemma skipWsF_pos_len (f : Nat) (l : Lexer) :
    (Lexer.skipWsF f l).pos ≤ max l.pos l.text.length := by
  induction f generalizing l with
  | zero => exact Nat.le_max_left _ _
  | succ f ih =>
    simp only [Lexer.skipWsF]
    cases hc : l.current with
    | none => exact Nat.le_max_left _ _
    | some c =>
      have hlt : l.pos < l.text.length := by
        by_contra hge
        rw [Lexer.current, List.getElem?_eq_none (by omega)] at hc
        cases hc
      by_cases hs : pyIsSpace c
      · simp only [hs, if_true]
        have h2 : (Lexer.skipWsF f l.advance).pos ≤ max (l.pos + 1) l.text.length :=
          ih l.advance
        omega
      · simp only [hs, Bool.false_eq_true, if_false]
        exact Nat.le_max_left _ _

lemma intF_text (f : Nat) (l : Lexer) (acc : Nat) : (Lexer.intF f l acc).2.text = l.text := by
  induction f generalizing l acc with
  | zero => rfl
  | succ f ih =>
    simp only [Lexer.intF]
    cases hc : l.current with
    | none => rfl
    | some c =>
      by_cases hd : c.isDigit
      · simp only [hd, if_true, ih, Lexer.advance]
      · simp only [hd, Bool.false_eq_true, if_false]

lemma intF_pos_le (f : Nat) (l : Lexer) (acc : Nat) : l.pos ≤ (Lexer.intF f l acc).2.pos := by
  induction f generalizing l acc with
  | zero => exact Nat.le_refl _
  | succ f ih =>
    simp only [Lexer.intF]
    cases hc : l.current with
    | none => exact Nat.le_refl _
    | some c =>
      by_cases hd : c.isDigit
      · simp only [hd, if_true]
        exact Nat.le_trans (Nat.le_succ _) (ih l.advance _)
      · simp only [hd, Bool.false_eq_true, if_false]
        exact Nat.le_refl _

lemma intF_pos_len (f : Nat) (l : Lexer) (acc : Nat) :
    (Lexer.intF f l acc).2.pos ≤ max l.pos l.text.length := by
  induction f generalizing l acc with
  | zero => exact Nat.le_max_left _ _
  | succ f ih =>
    simp only [Lexer.intF]
    cases hc : l.current with
    | none => exact Nat.le_max_left _ _
    | some c =>
      have hlt : l.pos < l.text.length := by
        by_contra hge
        rw [Lexer.current, List.getElem?_eq_none (by omega)] at hc
        cases hc
      by_cases hd : c.isDigit
      · simp only [hd, if_true]
        have h2 : (Lexer.intF f l.advance (acc * 10 + (c.toNat - Char.toNat '0'))).2.pos ≤
            max (l.pos + 1) l.text.length := ih l.advance _
        omega
      · simp only [hd, Bool.false_eq_true, if_false]
        exact Nat.le_max_left _ _

lemma current_some_lt {l : Lexer} {c : Char} (hc : l.current = some c) :
    l.pos < l.text.length := by
  by_contra hge
  rw [Lexer.current, List.getElem?_eq_none (by omega)] at hc
  cases hc

/-- Structure of one successful `get_next_token` call: the text is
unchanged, the position does not move backwards, `EOF` is produced exactly
at the end of input (with the whitespace-skipped state), and any other
token consumes at least one character while staying inside the input. -/
lemma get_next_token_ok {l : Lexer} {t : Token} {l1 : Lexer}
    (h : l.get_next_token = .ok (t, l1)) :
    l1.text = l.text ∧ l.pos ≤ l1.pos ∧
      (t = .EOF → l1 = l.skip_ws ∧ l1.current = none) ∧
      (t ≠ .EOF → l.pos < l1.pos ∧ l1.pos ≤ l.text.length) := by
  have hsk : (Lexer.skip_ws l).text = l.text := skipWsF_text _ _
  have hskp : l.pos ≤ (Lexer.skip_ws l).pos := skipWsF_pos_le _ _
  simp only [Lexer.get_next_token] at h
  cases hc : (Lexer.skip_ws l).current with
  | none =>
    rw [hc] at h
    simp only [Except.ok.injEq, Prod.mk.injEq] at h
    obtain ⟨rfl, rfl⟩ := h
    exact ⟨hsk, hskp, fun _ => ⟨rfl, hc⟩, fun hne => absurd rfl hne⟩
  | some c =>
    rw [hc] at h
    have hlt : (Lexer.skip_ws l).pos < l.text.length := by
      have := current_some_lt hc
      rwa [hsk] at this
    dsimp only at h
    split_ifs at h with hd h1 h2 h3 h4 h5 h6
    · simp only [Except.ok.injEq, Prod.mk.injEq] at h
      obtain ⟨rfl, rfl⟩ := h
      have hstep : Lexer.integer (Lexer.skip_ws l) =
          Lexer.intF ((Lexer.skip_ws l).text.length) (Lexer.skip_ws l).advance
            (0 * 10 + (c.toNat - Char.toNat '0')) := by
        simp only [Lexer.integer, Lexer.intF, hc, hd, if_true]
      constructor
      · rw [hstep]
        rw [intF_text]
        exact hsk
      refine ⟨?_, fun habs => Token.noConfusion habs, fun _ => ⟨?_, ?_⟩⟩
      · rw [hstep]
        have hle := intF_pos_le ((Lexer.skip_ws l).text.length) (Lexer.skip_ws l).advance
          (0 * 10 + (c.toNat - Char.toNat '0'))
        have hadv : (Lexer.skip_ws l).advance.pos = (Lexer.skip_ws l).pos + 1 := rfl
        omega
      · rw [hstep]
        have hle := intF_pos_le ((Lexer.skip_ws l).text.length) (Lexer.skip_ws l).advance
          (0 * 10 + (c.toNat - Char.toNat '0'))
        have hadv : (Lexer.skip_ws l).advance.pos = (Lexer.skip_ws l).pos + 1 := rfl
        omega
      · rw [hstep]
        have hb := intF_pos_len ((Lexer.skip_ws l).text.length) (Lexer.skip_ws l).advance
          (0 * 10 + (c.toNat - Char.toNat '0'))
        have hadv : (Lexer.skip_ws l).advance.pos = (Lexer.skip_ws l).pos + 1 := rfl
        have hadvt : (Lexer.skip_ws l).advance.text.length = l.text.length := by
          have hx : (Lexer.skip_ws l).advance.text = (Lexer.skip_ws l).text := rfl
          rw [hx, hsk]
        rw [hadv, hadvt] at hb
        omega
    · simp only [Except.ok.injEq, Prod.mk.injEq] at h
      obtain ⟨rfl, rfl⟩ := h
      exact ⟨hsk, Nat.le_trans hskp (Nat.le_succ _), fun habs => Token.noConfusion habs,
        fun _ => ⟨Nat.lt_succ_of_le hskp, hlt⟩⟩
    · simp only [Except.ok.injEq, Prod.mk.injEq] at h
      obtain ⟨rfl, rfl⟩ := h
      exact ⟨hsk, Nat.le_trans hskp (Nat.le_succ _), fun habs => Token.noConfusion habs,
        fun _ => ⟨Nat.lt_succ_of_le hskp, hlt⟩⟩
    · simp only [Except.ok.injEq, Prod.mk.injEq] at h
      obtain ⟨rfl, rfl⟩ := h
      exact ⟨hsk, Nat.le_trans hskp (Nat.le_succ _), fun habs => Token.noConfusion habs,
        fun _ => ⟨Nat.lt_succ_of_le hskp, hlt⟩⟩
    · simp only [Except.ok.injEq, Prod.mk.injEq] at h
      obtain ⟨rfl, rfl⟩ := h
      exact ⟨hsk, Nat.le_trans hskp (Nat.le_succ _), fun habs => Token.noConfusion habs,
        fun _ => ⟨Nat.lt_succ_of_le hskp, hlt⟩⟩
    · simp only [Except.ok.injEq, Prod.mk.injEq] at h
      obtain ⟨rfl, rfl⟩ := h
      exact ⟨hsk, Nat.le_trans hskp (Nat.le_succ _), fun habs => Token.noConfusion habs,
        fun _ => ⟨Nat.lt_succ_of_le hskp, hlt⟩⟩
    · simp only [Except.ok.injEq, Prod.mk.injEq] at h
      obtain ⟨rfl, rfl⟩ := h
      exact ⟨hsk, Nat.le_trans hskp (Nat.le_succ _), fun habs => Token.noConfusion habs,
        fun _ => ⟨Nat.lt_succ_of_le hskp, hlt⟩⟩

/-- Once `EOF` has been produced, a further call yields `EOF` again with
the same lexer state. -/
lemma get_next_token_absorb {l l1 : Lexer} (h : l.get_next_token = .ok (.EOF, l1)) :
    l1.get_next_token = .ok (.EOF, l1) := by
  obtain ⟨-, -, heof, -⟩ := get_next_token_ok h
  obtain ⟨-, hnone⟩ := heof rfl
  have hskid : l1.skip_ws = l1 := by
    simp only [Lexer.skip_ws, Lexer.skipWsF, hnone]
  simp only [Lexer.get_next_token, hskid, hnone]

/-- A lexer stream of tokens fits in the remaining input: every non-`EOF`
token consumes at least one character. -/
lemma lexStream_length {l : Lexer} {ts : List Token} (h : LexStream l ts) :
    ts.length ≤ l.text.length - l.pos := by
  induction h with
  | nil => simp
  | @cons l l1 t ts hg hne hs ih =>
    obtain ⟨htext, -, -, hstrict⟩ := get_next_token_ok hg
    obtain ⟨hlt, hle⟩ := hstrict hne
    rw [htext] at ih
    simp only [List.length_cons]
    omega

/-- The token sequence is finite: with fuel exceeding the remaining input
length, iterating `get_next_token` reaches `EOF` or an error. -/
lemma lexRunF_no_fuelOut : ∀ (fuel : Nat) (l : Lexer), l.text.length - l.pos < fuel →
    (lexRunF fuel l).2 ≠ .fuelOut := by
  intro fuel
  induction fuel with
  | zero => intro l h; omega
  | succ fuel ih =>
    intro l h
    cases hg : l.get_next_token with
    | error e => simp [lexRunF, hg]
    | ok pr =>
      obtain ⟨t, l1⟩ := pr
      cases t
      case EOF => simp [lexRunF, hg]
      all_goals
        simp only [lexRunF, hg]
        apply ih
        obtain ⟨htext, hge, hif, hstrict⟩ := get_next_token_ok hg
        obtain ⟨hlt, hle⟩ := hstrict (by intro hx; cases hx)
        rw [htext]
        omega

/-- Claim C9, counterexample: on the input `"&"` the very first call
raises, so the token sequence is empty and is never terminated by
`EndOfInput`. -/
theorem C9_counterexample :
    lexAll ("&") = ([], .err (synExc ("Unexpected character: &"))) ∧
    LexEnd.err (synExc ("Unexpected character: &")) ≠ LexEnd.eof := by
  exact ⟨rfl, by decide⟩

/-- Claim C9, amended: for every input the token sequence is finite —
iterated calls reach `EndOfInput` or raise within the input length; when
`EndOfInput` has been produced every further call yields `EndOfInput`
again with unchanged state; and every successful non-`EndOfInput` call
strictly advances the position while staying within the input.  (On an
input with an unknown character the sequence ends in the `SyntaxError`
rather than `EndOfInput`.) -/
theorem C9_amended :
    (∀ (fuel : Nat) (l : Lexer), l.text.length - l.pos < fuel → (lexRunF fuel l).2 ≠ .fuelOut) ∧
    (∀ text : String, (lexAll text).2 ≠ .fuelOut) ∧
    (∀ (l l1 : Lexer), l.get_next_token = .ok (.EOF, l1) → l1.get_next_token = .ok (.EOF, l1)) ∧
    (∀ (l l1 : Lexer) (t : Token), l.get_next_token = .ok (t, l1) → t ≠ .EOF →
      l.pos < l1.pos ∧ l1.pos ≤ l.text.length) := by
  refine ⟨lexRunF_no_fuelOut, ?_, ?_, ?_⟩
  · intro text
    apply lexRunF_no_fuelOut
    have hx : text.length = text.data.length := rfl
    simp only [Lexer.mkInit]
    omega
  · intro l l1 h
    exact get_next_token_absorb h
  · intro l l1 t h hne
    exact (get_next_token_ok h).2.2.2 hne

/-- Witness for the amended claim C9 at concrete inputs. -/
theorem C9_witness :
    (lexRunF 2 ⟨['1'], 0⟩).2 ≠ .fuelOut ∧
    (lexAll ("1+2")).2 ≠ .fuelOut ∧
    Lexer.get_next_token (⟨[], 0⟩ : Lexer) = .ok (.EOF, ⟨[], 0⟩) ∧
    (0 : Nat) < 1 ∧ 1 ≤ 1 := by
  refine ⟨C9_amended.1 2 ⟨['1'], 0⟩ (by decide), C9_amended.2.1 ("1+2"), ?_, ?_⟩
  · exact C9_amended.2.2.1 ⟨[], 0⟩ ⟨[], 0⟩ (by rfl)
  · exact C9_amended.2.2.2 ⟨['1'], 0⟩ ⟨['1'], 1⟩ (.NUMBER 1) (by rfl) (by decide)

/-- On all-whitespace remaining input, `skip_ws` stops exactly at the end
of the input. -/
lemma skipWsF_all_space : ∀ (fuel : Nat) (l : Lexer), l.pos ≤ l.text.length →
    (∀ (i : Nat) (h : i < l.text.length), l.pos ≤ i → pyIsSpace (l.text.get ⟨i, h⟩) = true) →
    l.text.length - l.pos < fuel →
    Lexer.skipWsF fuel l = ⟨l.text, l.text.length⟩ := by
  intro fuel
  induction fuel with
  | zero => intro l h1 h2 h3; omega
  | succ fuel ih =>
    intro l hpos hall hf
    rcases Nat.eq_or_lt_of_le hpos with heq | hlt
    · have hc : l.current = none := by
        rw [Lexer.current, List.getElem?_eq_none (by omega)]
      simp only [Lexer.skipWsF, hc]
      cases l
      simp_all
    · have hc : l.current = some (l.text.get ⟨l.pos, hlt⟩) := by
        rw [Lexer.current, List.getElem?_eq_getElem hlt, List.get_eq_getElem]
      have hsp := hall l.pos hlt (Nat.le_refl _)
      simp only [Lexer.skipWsF, hc, hsp, if_true]
      exact ih l.advance (by simp only [Lexer.advance]; omega)
        (fun i hi hge => hall i hi (by simp only [Lexer.advance] at hge; omega))
        (by simp only [Lexer.advance]; omega)

/-- On an all-whitespace input the parser's first lookahead is already
`EOF`. -/
lemma parser_init_all_space (text : String) (h : text.data.all pyIsSpace = true) :
    Parser.mkInit text = .ok ⟨⟨text.data, text.data.length⟩, .EOF⟩ := by
  have hsk : (Lexer.mkInit text).skip_ws = ⟨text.data, text.data.length⟩ := by
    apply skipWsF_all_space
    · exact Nat.zero_le _
    · intro i hi hge
      exact List.all_eq_true.mp h _ (List.get_mem _ _ hi)
    · omega
  have hc : (⟨text.data, text.data.length⟩ : Lexer).current = none := by
    rw [Lexer.current, List.getElem?_eq_none (Nat.le_refl _)]
  simp only [Parser.mkInit, Lexer.get_next_token, hsk, hc]

/-- With the lookahead at `EOF` and at least three units of fuel, `expr`
fails in `factor` with the unexpected-token error. -/
lemma expr_eof_error (fuel : Nat) (p : Parser) (hcur : p.current = .EOF) (hf : 3 ≤ fuel) :
    Parser.expr fuel p = .error (synExc ("Unexpected token: " ++ Token.reprStr .EOF)) := by
  obtain ⟨k, rfl⟩ : ∃ k, fuel = k + 1 + 1 + 1 := ⟨fuel - 3, by omega⟩
  simp only [Parser.expr, Parser.term, Parser.factor, hcur]

/-- Claim C10: the empty input and every all-whitespace input fail with
`SyntaxError` (`factor` refuses the immediate `EOF` token), in both output
modes; no module is ever returned for an input with no expression. -/
theorem C10 (text : String) (pr : Bool) (h : text.data.all pyIsSpace = true) :
    compile_to_ir text pr = .error (synExc ("Unexpected token: Token(EOF, None)")) := by
  have hinit := parser_init_all_space text h
  have hexpr := expr_eof_error (parseFuel text) ⟨⟨text.data, text.data.length⟩, .EOF⟩ rfl
    (by simp only [parseFuel]; omega)
  simp only [compile_to_ir, Parser.parse, hinit, hexpr]
  rfl

/-- Witness for claim C10: the empty input and a one-space input. -/
theorem C10_witness :
    compile_to_ir ("") true = .error (synExc ("Unexpected token: Token(EOF, None)")) ∧
    compile_to_ir (" ") false = .error (synExc ("Unexpected token: Token(EOF, None)")) :=
  ⟨C10 ("") true (by rfl), C10 (" ") false (by rfl)⟩

/-- Unfolding of `emit_bin`. -/
lemma emit_bin_eq (s : IRGen) (o : String) (a b : Val) :
    IRGen.emit_bin s o a b =
      (Val.reg (s.reg + 1), ⟨s.lines ++ [⟨s.reg + 1, o, a, b⟩], s.reg + 1⟩) := rfl

/-- Master structure lemma for `IRGen.gen`: the register counter and the
emitted line count both grow by exactly one per `BinOp` node plus one per
unary minus over a register-valued operand; lines are only appended; the
result is an immediate exactly when `isImmRes` says so; and a register
result is always the most recently allocated register. -/
lemma gen_master (ast : AST) : ∀ (s : IRGen),
    (IRGen.gen ast s).2.reg = s.reg + ast.countBin + ast.countMinusReg ∧
    (IRGen.gen ast s).2.lines.length = s.lines.length + ast.countBin + ast.countMinusReg ∧
    (∃ tail, (IRGen.gen ast s).2.lines = s.lines ++ tail) ∧
    ((IRGen.gen ast s).1.isImm = ast.isImmRes) ∧
    (∀ n : Nat, (IRGen.gen ast s).1 = .reg n → n = (IRGen.gen ast s).2.reg ∧ s.reg < n) := by
  induction ast with
  | Number v =>
    intro s
    refine ⟨by simp [IRGen.gen, AST.countBin, AST.countMinusReg],
      by simp [IRGen.gen, AST.countBin, AST.countMinusReg],
      ⟨[], by simp [IRGen.gen]⟩,
      by simp [IRGen.gen, Val.isImm, AST.isImmRes], ?_⟩
    intro n hn
    simp only [IRGen.gen] at hn
    cases hn
  | BinOp op l r ihl ihr =>
    intro s
    obtain ⟨hl1, hl2, ⟨tl, htl⟩, hl4, hl5⟩ := ihl s
    obtain ⟨hr1, hr2, ⟨tr, htr⟩, hr4, hr5⟩ := ihr (IRGen.gen l s).2
    have hgen : IRGen.gen (.BinOp op l r) s =
        IRGen.emit_bin (IRGen.gen r (IRGen.gen l s).2).2 (opmap op) (IRGen.gen l s).1
          (IRGen.gen r (IRGen.gen l s).2).1 := rfl
    rw [hgen, emit_bin_eq]
    refine ⟨?_, ?_, ?_, ?_, ?_⟩
    · simp only [AST.countBin, AST.countMinusReg]
      omega
    · simp only [AST.countBin, AST.countMinusReg, List.length_append, List.length_cons,
        List.length_nil]
      omega
    · refine ⟨tl ++ tr ++ [⟨(IRGen.gen r (IRGen.gen l s).2).2.reg + 1, opmap op,
        (IRGen.gen l s).1, (IRGen.gen r (IRGen.gen l s).2).1⟩], ?_⟩
      simp only [htr, htl, List.append_assoc]
    · simp [Val.isImm, AST.isImmRes]
    · intro n hn
      simp only [Val.reg.injEq] at hn
      subst hn
      exact ⟨rfl, by omega⟩
  | UnaryOp op e ih =>
    intro s
    cases op with
    | PLUS =>
      obtain ⟨h1, h2, h3, h4, h5⟩ := ih s
      have hgen : IRGen.gen (.UnaryOp .PLUS e) s = IRGen.gen e s := rfl
      rw [hgen]
      simp only [AST.countBin, AST.countMinusReg, AST.isImmRes]
      exact ⟨h1, h2, h3, h4, h5⟩
    | MINUS =>
      obtain ⟨h1, h2, ⟨t, ht⟩, h4, h5⟩ := ih s
      cases hv : (IRGen.gen e s).1 with
      | imm i =>
        have hpair : IRGen.gen e s = (Val.imm i, (IRGen.gen e s).2) := by
          cases hg : IRGen.gen e s with
          | mk fst snd =>
            rw [hg] at hv
            simp only at hv
            rw [hv]
        have hgen : IRGen.gen (.UnaryOp .MINUS e) s = (.imm (-i), (IRGen.gen e s).2) := by
          conv_lhs => rw [IRGen.gen, hpair]
        rw [hv] at h4
        simp only [Val.isImm] at h4
        rw [hgen]
        simp only [AST.countBin, AST.countMinusReg, AST.isImmRes, ← h4, if_true]
        refine ⟨by omega, by omega, ⟨t, ht⟩, by simp [Val.isImm], ?_⟩
        intro n hn
        cases hn
      | reg m =>
        have hpair : IRGen.gen e s = (Val.reg m, (IRGen.gen e s).2) := by
          cases hg : IRGen.gen e s with
          | mk fst snd =>
            rw [hg] at hv
            simp only at hv
            rw [hv]
        have hgen : IRGen.gen (.UnaryOp .MINUS e) s =
            IRGen.emit_bin (IRGen.gen e s).2 ("sub") (.imm 0) (.reg m) := by
          conv_lhs => rw [IRGen.gen, hpair]
        rw [hv] at h4
        simp only [Val.isImm] at h4
        rw [hgen, emit_bin_eq]
        simp only [AST.countBin, AST.countMinusReg, AST.isImmRes, ← h4,
          Bool.false_eq_true, if_false, List.length_append, List.length_cons, List.length_nil]
        refine ⟨by omega, by omega,
          ⟨t ++ [⟨(IRGen.gen e s).2.reg + 1, "sub", .imm 0, .reg m⟩], by
            simp only [ht, List.append_assoc]⟩,
          by simp [Val.isImm], ?_⟩
        intro n hn
        simp only [Val.reg.injEq] at hn
        subst hn
        exact ⟨rfl, by omega⟩

/-- Claim C6: no binary constant folding — starting from the fresh
generator state, the number of emitted body instructions is exactly the
number of `BinOp` nodes plus the number of unary-minus nodes whose operand
evaluated to a register reference (`isImmRes` captures "evaluated to an
immediate", by the fourth conjunct applied at every subterm); every
`BinOp` node itself emits exactly one instruction carrying its mapped
opcode, with `+` as add, `-` as sub, `*` as mul and `/` as sdiv. -/
theorem C6 :
    (∀ ast : AST, (IRGen.gen ast ⟨[], 0⟩).2.lines.length = ast.countBin + ast.countMinusReg) ∧
    (∀ (ast : AST) (s : IRGen), (IRGen.gen ast s).1.isImm = ast.isImmRes) ∧
    (∀ (op : BOp) (l r : AST) (s : IRGen),
      (IRGen.gen (.BinOp op l r) s).2.lines =
        (IRGen.gen r (IRGen.gen l s).2).2.lines ++
          [⟨(IRGen.gen r (IRGen.gen l s).2).2.reg + 1, opmap op, (IRGen.gen l s).1,
            (IRGen.gen r (IRGen.gen l s).2).1⟩]) ∧
    opmap .PLUS = "add" ∧ opmap .MINUS = "sub" ∧ opmap .MUL = "mul" ∧ opmap .DIV = "sdiv" := by
  refine ⟨?_, ?_, ?_, rfl, rfl, rfl, rfl⟩
  · intro ast
    have h := (gen_master ast ⟨[], 0⟩).2.1
    simpa using h
  · intro ast s
    exact (gen_master ast s).2.2.2.1
  · intro op l r s
    rfl

lemma linesOk_append (xs : List Instr) : ∀ (ys : List Instr) (b : Nat),
    linesOk (xs ++ ys) b ↔ linesOk xs b ∧ linesOk ys (b + xs.length) := by
  induction xs with
  | nil =>
    intro ys b
    simp [linesOk]
  | cons x xs ih =>
    intro ys b
    simp only [List.cons_append, linesOk, List.length_cons, List.append_eq]
    rw [ih ys (b + 1)]
    have hb : b + (xs.length + 1) = b + 1 + xs.length := by omega
    rw [hb]
    tauto

/-- Positional reading of `linesOk`. -/
lemma linesOk_get (lines : List Instr) : ∀ (b : Nat), linesOk lines b →
    ∀ (i : Nat) (h : i < lines.length),
      (lines.get ⟨i, h⟩).r = b + i + 1 ∧
      opndLe (lines.get ⟨i, h⟩).a (b + i) ∧ opndLe (lines.get ⟨i, h⟩).b (b + i) := by
  induction lines with
  | nil =>
    intro b hok i h
    simp at h
  | cons x xs ih =>
    intro b hok i h
    obtain ⟨hr, ha, hb2, hrest⟩ := hok
    cases i with
    | zero =>
      exact ⟨hr, by simpa using ha, by simpa using hb2⟩
    | succ i =>
      have := ih (b + 1) hrest i (by simpa using Nat.lt_of_succ_lt_succ h)
      refine ⟨?_, ?_, ?_⟩
      · rw [List.get_cons_succ]
        rw [this.1]
        omega
      · rw [List.get_cons_succ]
        have hx := this.2.1
        have heq : b + 1 + i = b + (i + 1) := by omega
        rwa [heq] at hx
      · rw [List.get_cons_succ]
        have hx := this.2.2
        have heq : b + 1 + i = b + (i + 1) := by omega
        rwa [heq] at hx

/-- A `linesOk` list has no forward references. -/
lemma linesOk_defBeforeUse (lines : List Instr) (h : linesOk lines 0) :
    DefBeforeUse lines := by
  intro i hi n hop
  obtain ⟨hr, ha, hb⟩ := linesOk_get lines 0 h i hi
  have hn : 1 ≤ n ∧ n ≤ i := by
    rcases hop with h1 | h1
    · rw [h1] at ha
      simpa using ha
    · rw [h1] at hb
      simpa using hb
  refine ⟨n - 1, by omega, by omega, ?_⟩
  obtain ⟨hr2, -, -⟩ := linesOk_get lines 0 h (n - 1) (by omega)
  rw [hr2]
  omega

lemma gen_fst_imm {e : AST} {s : IRGen} {i : Int} (hv : (IRGen.gen e s).1 = .imm i) :
    IRGen.gen e s = (.imm i, (IRGen.gen e s).2) := by
  cases hg : IRGen.gen e s with
  | mk fst snd =>
    rw [hg] at hv
    simp only at hv
    rw [hv]

lemma gen_fst_reg {e : AST} {s : IRGen} {m : Nat} (hv : (IRGen.gen e s).1 = .reg m) :
    IRGen.gen e s = (.reg m, (IRGen.gen e s).2) := by
  cases hg : IRGen.gen e s with
  | mk fst snd =>
    rw [hg] at hv
    simp only at hv
    rw [hv]

/-- With a register counter in sync with the emitted lines, code generation
preserves the line well-formedness invariant. -/
lemma gen_linesOk (ast : AST) : ∀ (s : IRGen), s.reg = s.lines.length → linesOk s.lines 0 →
    linesOk (IRGen.gen ast s).2.lines 0 := by
  induction ast with
  | Number v =>
    intro s hsync hok
    exact hok
  | UnaryOp op e ih =>
    intro s hsync hok
    cases op with
    | PLUS => exact ih s hsync hok
    | MINUS =>
      cases hv : (IRGen.gen e s).1 with
      | imm i =>
        have hgen : IRGen.gen (.UnaryOp .MINUS e) s = (.imm (-i), (IRGen.gen e s).2) := by
          conv_lhs => rw [IRGen.gen, gen_fst_imm hv]
        rw [hgen]
        exact ih s hsync hok
      | reg m =>
        have hgen : IRGen.gen (.UnaryOp .MINUS e) s =
            IRGen.emit_bin (IRGen.gen e s).2 ("sub") (.imm 0) (.reg m) := by
          conv_lhs => rw [IRGen.gen, gen_fst_reg hv]
        rw [hgen, emit_bin_eq]
        rw [linesOk_append]
        have hok2 := ih s hsync hok
        have hm1 := (gen_master e s).1
        have hm2 := (gen_master e s).2.1
        have hm := (gen_master e s).2.2.2.2 m hv
        refine ⟨hok2, ?_⟩
        simp only [linesOk, opndLe]
        refine ⟨by omega, trivial, ⟨by omega, by omega⟩, trivial⟩
  | BinOp op l r ihl ihr =>
    intro s hsync hok
    have hgen : IRGen.gen (.BinOp op l r) s =
        IRGen.emit_bin (IRGen.gen r (IRGen.gen l s).2).2 (opmap op) (IRGen.gen l s).1
          (IRGen.gen r (IRGen.gen l s).2).1 := rfl
    rw [hgen, emit_bin_eq, linesOk_append]
    have hl1 := (gen_master l s).1
    have hl2 := (gen_master l s).2.1
    have hr1 := (gen_master r (IRGen.gen l s).2).1
    have hr2 := (gen_master r (IRGen.gen l s).2).2.1
    have hokl := ihl s hsync hok
    have hokr := ihr (IRGen.gen l s).2 (by omega) hokl
    refine ⟨hokr, ?_⟩
    simp only [linesOk, opndLe]
    refine ⟨by omega, ?_, ?_, trivial⟩
    · cases hva : (IRGen.gen l s).1 with
      | imm i => simp [opndLe]
      | reg n =>
        have hn := (gen_master l s).2.2.2.2 n hva
        simp only [opndLe]
        exact ⟨by omega, by omega⟩
    · cases hvb : (IRGen.gen r (IRGen.gen l s).2).1 with
      | imm i => simp [opndLe]
      | reg n =>
        have hn := (gen_master r (IRGen.gen l s).2).2.2.2.2 n hvb
        simp only [opndLe]
        exact ⟨by omega, by omega⟩

/-- The fresh-state generator run satisfies the line invariant. -/
lemma gen_linesOk0 (ast : AST) : linesOk (IRGen.gen ast ⟨[], 0⟩).2.lines 0 :=
  gen_linesOk ast ⟨[], 0⟩ rfl trivial

/-- From the fresh state, the register counter equals the number of
emitted lines. -/
lemma gen_sync (ast : AST) :
    (IRGen.gen ast ⟨[], 0⟩).2.reg = (IRGen.gen ast ⟨[], 0⟩).2.lines.length := by
  have h1 := (gen_master ast ⟨[], 0⟩).1
  have h2 := (gen_master ast ⟨[], 0⟩).2.1
  have ha : (⟨[], 0⟩ : IRGen).reg = 0 := rfl
  have hb : (⟨[], 0⟩ : IRGen).lines.length = 0 := rfl
  omega

lemma trunc32_wrap64 (x : Int) : trunc32 (wrap64 x) = trunc32 x := by
  have key : ((x + 9223372036854775808) % 18446744073709551616 - 9223372036854775808) %
      4294967296 = x % 4294967296 := by
    rw [Int.sub_emod]
    rw [Int.emod_emod_of_dvd _ (by norm_num : (4294967296:Int) ∣ 18446744073709551616)]
    have h1 : x + 9223372036854775808 = x + 4294967296 * 2147483648 := by norm_num
    rw [h1, Int.add_mul_emod_self_left]
    have h2 : (9223372036854775808 : Int) % 4294967296 = 0 := by decide
    rw [h2, sub_zero, Int.emod_emod_of_dvd _ dvd_rfl]
  simp only [trunc32, wrap64]
  have h64 : (2:Int)^64 = 18446744073709551616 := by norm_num
  have h63 : (2:Int)^63 = 9223372036854775808 := by norm_num
  have h32 : (2:Int)^32 = 4294967296 := by norm_num
  rw [h64, h63, h32, key]

/-- Exit-code mode, final immediate within the signed 32-bit range: the
module returns the literal directly. -/
lemma build_module_out_imm_narrow (ast : AST) (i : Int)
    (hv : (IRGen.gen ast ⟨[], 0⟩).1 = .imm i) (hw : wideImm i = false) :
    IRGen.build_module_out false ast =
      [modHeader, mainOpen, entryLabel] ++
        (IRGen.gen ast ⟨[], 0⟩).2.lines.map Instr.render ++
        ["  ret i32 " ++ Int.repr i, "\x7d"] := by
  simp only [IRGen.build_module_out, hv, hw, Bool.false_eq_true, if_false,
    List.append_assoc, List.nil_append, List.append_nil]
  rfl

lemma exitValue_imm_narrow (ast : AST) (i : Int)
    (hv : (IRGen.gen ast ⟨[], 0⟩).1 = .imm i) (hw : wideImm i = false) :
    exitValue ast = i := by
  simp only [exitValue, hv, hw, Bool.false_eq_true, if_false]

/-- Exit-code mode, final immediate outside the signed 32-bit range: the
module materializes the immediate into a fresh register, truncates it with
an explicit `trunc`, and returns the truncated register. -/
lemma build_module_out_imm_wide (ast : AST) (i : Int)
    (hv : (IRGen.gen ast ⟨[], 0⟩).1 = .imm i) (hw : wideImm i = true) :
    IRGen.build_module_out false ast =
      [modHeader, mainOpen, entryLabel] ++
        (IRGen.gen ast ⟨[], 0⟩).2.lines.map Instr.render ++
        ["  %t" ++ Nat.repr ((IRGen.gen ast ⟨[], 0⟩).2.reg + 1) ++ " = add i64 0, " ++ Int.repr i,
         "  %t" ++ Nat.repr ((IRGen.gen ast ⟨[], 0⟩).2.reg + 1 + 1) ++ " = trunc i64 %t" ++
           Nat.repr ((IRGen.gen ast ⟨[], 0⟩).2.reg + 1) ++ " to i32",
         "  ret i32 %t" ++ Nat.repr ((IRGen.gen ast ⟨[], 0⟩).2.reg + 1 + 1), "\x7d"] := by
  simp only [IRGen.build_module_out, hv, hw, if_true, IRGen.newreg, Bool.false_eq_true, if_false,
    List.append_assoc, List.nil_append, List.append_nil]
  rfl

lemma exitValue_imm_wide (ast : AST) (i : Int)
    (hv : (IRGen.gen ast ⟨[], 0⟩).1 = .imm i) (hw : wideImm i = true) :
    exitValue ast = trunc32 i := by
  simp only [exitValue, hv, hw, if_true]
  rw [zero_add]
  exact trunc32_wrap64 i

/-- Exit-code mode, final value in a register: one narrowing `trunc`
instruction on a fresh register, then return it. -/
lemma build_module_out_reg (ast : AST) (m : Nat)
    (hv : (IRGen.gen ast ⟨[], 0⟩).1 = .reg m) :
    IRGen.build_module_out false ast =
      [modHeader, mainOpen, entryLabel] ++
        (IRGen.gen ast ⟨[], 0⟩).2.lines.map Instr.render ++
        ["  %t" ++ Nat.repr ((IRGen.gen ast ⟨[], 0⟩).2.reg + 1) ++ " = trunc i64 " ++
           Val.render (.reg m) ++ " to i32",
         "  ret i32 %t" ++ Nat.repr ((IRGen.gen ast ⟨[], 0⟩).2.reg + 1), "\x7d"] := by
  simp only [IRGen.build_module_out, hv, IRGen.newreg, Bool.false_eq_true, if_false,
    List.append_assoc, List.nil_append, List.append_nil]
  rfl

/-- Claim C2: the generated module in exit-code mode.  For the concrete
input `"2147483648"` (one past the signed 32-bit maximum) the module does
not return the wide literal: it materializes it into `%t1`, truncates into
`%t2` with an explicit `trunc`, returns `%t2`, and the returned 32-bit
value is the minimum negative 32-bit value.  In general a final
compile-time immediate outside the signed 32-bit range takes that
materialize-and-narrow path with returned value `trunc32 i` (the value
mod `2^32` interpreted as signed 32 bits), while an in-range immediate is
returned directly as a literal. -/
theorem C2 :
    Parser.parse ("2147483648") = .ok (.Number 2147483648) ∧
    IRGen.build_module_out false (.Number 2147483648) =
      [modHeader, mainOpen, entryLabel,
       "  %t1 = add i64 0, 2147483648",
       "  %t2 = trunc i64 %t1 to i32",
       "  ret i32 %t2", "\x7d"] ∧
    exitValue (.Number 2147483648) = -2147483648 ∧
    (∀ (ast : AST) (i : Int), (IRGen.gen ast ⟨[], 0⟩).1 = .imm i → wideImm i = false →
      IRGen.build_module_out false ast =
        [modHeader, mainOpen, entryLabel] ++
          (IRGen.gen ast ⟨[], 0⟩).2.lines.map Instr.render ++
          ["  ret i32 " ++ Int.repr i, "\x7d"] ∧
      exitValue ast = i) ∧
    (∀ (ast : AST) (i : Int), (IRGen.gen ast ⟨[], 0⟩).1 = .imm i → wideImm i = true →
      IRGen.build_module_out false ast =
        [modHeader, mainOpen, entryLabel] ++
          (IRGen.gen ast ⟨[], 0⟩).2.lines.map Instr.render ++
          ["  %t" ++ Nat.repr ((IRGen.gen ast ⟨[], 0⟩).2.reg + 1) ++ " = add i64 0, " ++
             Int.repr i,
           "  %t" ++ Nat.repr ((IRGen.gen ast ⟨[], 0⟩).2.reg + 1 + 1) ++ " = trunc i64 %t" ++
             Nat.repr ((IRGen.gen ast ⟨[], 0⟩).2.reg + 1) ++ " to i32",
           "  ret i32 %t" ++ Nat.repr ((IRGen.gen ast ⟨[], 0⟩).2.reg + 1 + 1), "\x7d"] ∧
      exitValue ast = trunc32 i) := by
  refine ⟨rfl, by rfl, by decide, ?_, ?_⟩
  · intro ast i hv hw
    exact ⟨build_module_out_imm_narrow ast i hv hw, exitValue_imm_narrow ast i hv hw⟩
  · intro ast i hv hw
    exact ⟨build_module_out_imm_wide ast i hv hw, exitValue_imm_wide ast i hv hw⟩

/-- Witness for claim C2: the in-range immediate `5` is returned directly
as a literal, and the wide immediate `2147483648` takes the
materialize-and-narrow path. -/
theorem C2_witness :
    (IRGen.build_module_out false (.Number 5) =
      [modHeader, mainOpen, entryLabel] ++
        (IRGen.gen (.Number 5) ⟨[], 0⟩).2.lines.map Instr.render ++
        ["  ret i32 " ++ Int.repr 5, "\x7d"] ∧
      exitValue (.Number 5) = 5) ∧
    (IRGen.build_module_out false (.Number 2147483648) =
      [modHeader, mainOpen, entryLabel] ++
        (IRGen.gen (.Number 2147483648) ⟨[], 0⟩).2.lines.map Instr.render ++
        ["  %t" ++ Nat.repr ((IRGen.gen (.Number 2147483648) ⟨[], 0⟩).2.reg + 1) ++
           " = add i64 0, " ++ Int.repr 2147483648,
         "  %t" ++ Nat.repr ((IRGen.gen (.Number 2147483648) ⟨[], 0⟩).2.reg + 1 + 1) ++
           " = trunc i64 %t" ++ Nat.repr ((IRGen.gen (.Number 2147483648) ⟨[], 0⟩).2.reg + 1) ++
           " to i32",
         "  ret i32 %t" ++ Nat.repr ((IRGen.gen (.Number 2147483648) ⟨[], 0⟩).2.reg + 1 + 1),
         "\x7d"] ∧
      exitValue (.Number 2147483648) = trunc32 2147483648) :=
  ⟨C2.2.2.2.1 (.Number 5) 5 rfl (by decide),
   C2.2.2.2.2 (.Number 2147483648) 2147483648 rfl (by decide)⟩

/-- Claim C8: registers are numbered `%t<N>` with `N` starting at 1 and
incrementing by one per emitted instruction (the i-th body instruction
defines register `i+1`, and the counter always equals the number of
emitted instructions); a register renders as `%t<N>`; every body
instruction line starts with exactly two spaces; and the extra
materialization/narrowing instructions of exit-code mode continue the same
counter with registers `reg+1` and `reg+2`. -/
theorem C8 :
    (∀ (ast : AST) (i : Nat) (h : i < (IRGen.gen ast ⟨[], 0⟩).2.lines.length),
      ((IRGen.gen ast ⟨[], 0⟩).2.lines.get ⟨i, h⟩).r = i + 1) ∧
    (∀ ast : AST, (IRGen.gen ast ⟨[], 0⟩).2.reg = (IRGen.gen ast ⟨[], 0⟩).2.lines.length) ∧
    (∀ n : Nat, Val.render (.reg n) = "%t" ++ Nat.repr n) ∧
    (∀ ins : Instr, (Instr.render ins).data.take 2 = [' ', ' ']) ∧
    (∀ (ast : AST) (i : Int), (IRGen.gen ast ⟨[], 0⟩).1 = .imm i → wideImm i = true →
      IRGen.build_module_out false ast =
        [modHeader, mainOpen, entryLabel] ++
          (IRGen.gen ast ⟨[], 0⟩).2.lines.map Instr.render ++
          ["  %t" ++ Nat.repr ((IRGen.gen ast ⟨[], 0⟩).2.reg + 1) ++ " = add i64 0, " ++
             Int.repr i,
           "  %t" ++ Nat.repr ((IRGen.gen ast ⟨[], 0⟩).2.reg + 1 + 1) ++ " = trunc i64 %t" ++
             Nat.repr ((IRGen.gen ast ⟨[], 0⟩).2.reg + 1) ++ " to i32",
           "  ret i32 %t" ++ Nat.repr ((IRGen.gen ast ⟨[], 0⟩).2.reg + 1 + 1), "\x7d"]) ∧
    (∀ (ast : AST) (m : Nat), (IRGen.gen ast ⟨[], 0⟩).1 = .reg m →
      IRGen.build_module_out false ast =
        [modHeader, mainOpen, entryLabel] ++
          (IRGen.gen ast ⟨[], 0⟩).2.lines.map Instr.render ++
          ["  %t" ++ Nat.repr ((IRGen.gen ast ⟨[], 0⟩).2.reg + 1) ++ " = trunc i64 " ++
             Val.render (.reg m) ++ " to i32",
           "  ret i32 %t" ++ Nat.repr ((IRGen.gen ast ⟨[], 0⟩).2.reg + 1), "\x7d"]) := by
  refine ⟨?_, gen_sync, fun n => rfl, ?_,
    fun ast i hv hw => build_module_out_imm_wide ast i hv hw,
    fun ast m hv => build_module_out_reg ast m hv⟩
  · intro ast i h
    have hr := (linesOk_get _ 0 (gen_linesOk0 ast) i h).1
    simpa using hr
  · intro ins
    have h1 : ("  %t").data = ' ' :: ' ' :: '%' :: 't' :: [] := rfl
    simp only [Instr.render, String.data_append, h1, List.cons_append, List.append_assoc,
      List.take_succ_cons, List.take_zero]

/-- Witness for claim C8 at concrete inputs: the single instruction of
`1+2` defines `%t1`; the wide immediate `2147483648` continues the counter
with `%t1`, `%t2`; the register result of `1+2` is narrowed into `%t2`. -/
theorem C8_witness :
    ((IRGen.gen (.BinOp .PLUS (.Number 1) (.Number 2)) ⟨[], 0⟩).2.lines.get
      ⟨0, by decide⟩).r = 0 + 1 ∧
    (IRGen.build_module_out false (.Number 2147483648) =
      [modHeader, mainOpen, entryLabel] ++
        (IRGen.gen (.Number 2147483648) ⟨[], 0⟩).2.lines.map Instr.render ++
        ["  %t" ++ Nat.repr ((IRGen.gen (.Number 2147483648) ⟨[], 0⟩).2.reg + 1) ++
           " = add i64 0, " ++ Int.repr 2147483648,
         "  %t" ++ Nat.repr ((IRGen.gen (.Number 2147483648) ⟨[], 0⟩).2.reg + 1 + 1) ++
           " = trunc i64 %t" ++ Nat.repr ((IRGen.gen (.Number 2147483648) ⟨[], 0⟩).2.reg + 1) ++
           " to i32",
         "  ret i32 %t" ++ Nat.repr ((IRGen.gen (.Number 2147483648) ⟨[], 0⟩).2.reg + 1 + 1),
         "\x7d"]) ∧
    (IRGen.build_module_out false (.BinOp .PLUS (.Number 1) (.Number 2)) =
      [modHeader, mainOpen, entryLabel] ++
        (IRGen.gen (.BinOp .PLUS (.Number 1) (.Number 2)) ⟨[], 0⟩).2.lines.map Instr.render ++
        ["  %t" ++ Nat.repr ((IRGen.gen (.BinOp .PLUS (.Number 1) (.Number 2)) ⟨[], 0⟩).2.reg + 1)
           ++ " = trunc i64 " ++ Val.render (.reg 1) ++ " to i32",
         "  ret i32 %t" ++
           Nat.repr ((IRGen.gen (.BinOp .PLUS (.Number 1) (.Number 2)) ⟨[], 0⟩).2.reg + 1),
         "\x7d"]) :=
  ⟨C8.1 (.BinOp .PLUS (.Number 1) (.Number 2)) 0 (by decide),
   C8.2.2.2.2.1 (.Number 2147483648) 2147483648 rfl (by decide),
   C8.2.2.2.2.2 (.BinOp .PLUS (.Number 1) (.Number 2)) 1 rfl⟩

/-- Eating the lookahead token of the stream succeeds and leaves the rest
of the stream. -/
lemma eat_stream {p : Parser} {t : Token} {rest : List Token}
    (h : Streams p (t :: rest)) :
    ∃ p1 : Parser, p.eat t.type = .ok p1 ∧ Streams p1 rest := by
  obtain ⟨hcur, hlex⟩ := h
  cases hlex with
  | @nil _ l1 hg =>
    refine ⟨⟨l1, .EOF⟩, ?_, ?_⟩
    · simp only [Parser.eat, hcur, if_pos, hg]
    · exact rfl
  | @cons _ l1 t2 ts2 hg hne hs =>
    refine ⟨⟨l1, t2⟩, ?_, ?_⟩
    · simp only [Parser.eat, hcur, if_pos, hg]
    · exact ⟨rfl, hs⟩

lemma notAnyOp_rparen (k : List Token) : notAnyOp (Token.RPAREN :: k) :=
  ⟨fun h => Token.noConfusion h, fun h => Token.noConfusion h,
   fun h => Token.noConfusion h, fun h => Token.noConfusion h⟩

/-- The continuation after the tokens of an `ExprRest` never starts with
`'*'` or `'/'`. -/
lemma exprRest_notMulDiv {tss k : List Token} (r : ExprRest tss) (hk : notAnyOp k) :
    notMulDiv (tss ++ k) := by
  cases r with
  | nil =>
    cases k with
    | nil => trivial
    | cons t rest => exact ⟨hk.2.2.1, hk.2.2.2⟩
  | plus t r => exact ⟨fun h => Token.noConfusion h, fun h => Token.noConfusion h⟩
  | minus t r => exact ⟨fun h => Token.noConfusion h, fun h => Token.noConfusion h⟩

mutual

/-- Completeness of `Parser.factor`: on a stream beginning with the tokens
of a factor derivation, `factor` succeeds consuming exactly those tokens,
given fuel at least the derivation size. -/
theorem factor_complete : ∀ (ts : List Token) (d : FactorD ts) (fuel : Nat) (p : Parser)
    (k : List Token), d.size ≤ fuel → Streams p (ts ++ k) →
    ∃ (a : AST) (p1 : Parser), Parser.factor fuel p = .ok (a, p1) ∧ Streams p1 k
  | _, .num v, fuel, p, k, hf, hs => by
    simp only [FactorD.size] at hf
    obtain ⟨f, rfl⟩ : ∃ f, fuel = f + 1 := ⟨fuel - 1, by omega⟩
    have hcur : p.current = .NUMBER v := hs.1
    obtain ⟨p1, heat, hs1⟩ := eat_stream (t := Token.NUMBER v) hs
    have heat2 : p.eat ("NUMBER") = .ok p1 := heat
    refine ⟨.Number v, p1, ?_, hs1⟩
    simp only [Parser.factor, hcur, heat2]
  | _, @FactorD.paren inner d, fuel, p, k, hf, hs => by
    simp only [FactorD.size] at hf
    obtain ⟨f, rfl⟩ : ∃ f, fuel = f + 1 := ⟨fuel - 1, by omega⟩
    have hs2 : Streams p (Token.LPAREN :: (inner ++ ([Token.RPAREN] ++ k))) := by
      have he : ([Token.LPAREN] ++ inner ++ [Token.RPAREN]) ++ k =
          Token.LPAREN :: (inner ++ ([Token.RPAREN] ++ k)) := by simp
      rwa [he] at hs
    have hcur : p.current = .LPAREN := hs2.1
    obtain ⟨p1, heat, hs3⟩ := eat_stream hs2
    have heat2 : p.eat ("LPAREN") = .ok p1 := heat
    obtain ⟨node, p2, hexpr, hs4⟩ := expr_complete inner d f p1 ([Token.RPAREN] ++ k)
      (by omega) hs3 (notAnyOp_rparen k)
    obtain ⟨p3, heat3, hs5⟩ := eat_stream (t := Token.RPAREN) hs4
    have heat4 : p2.eat ("RPAREN") = .ok p3 := heat3
    refine ⟨node, p3, ?_, hs5⟩
    simp only [Parser.factor, hcur, heat2, hexpr, heat4]
  | _, @FactorD.uplus inner d, fuel, p, k, hf, hs => by
    simp only [FactorD.size] at hf
    obtain ⟨f, rfl⟩ : ∃ f, fuel = f + 1 := ⟨fuel - 1, by omega⟩
    have hs2 : Streams p (Token.PLUS :: (inner ++ k)) := hs
    have hcur : p.current = .PLUS := hs2.1
    obtain ⟨p1, heat, hs3⟩ := eat_stream hs2
    have heat2 : p.eat ("PLUS") = .ok p1 := heat
    obtain ⟨e1, p2, hfac, hs4⟩ := factor_complete inner d f p1 k (by omega) hs3
    refine ⟨.UnaryOp .PLUS e1, p2, ?_, hs4⟩
    simp only [Parser.factor, hcur, heat2, hfac]
  | _, @FactorD.uminus inner d, fuel, p, k, hf, hs => by
    simp only [FactorD.size] at hf
    obtain ⟨f, rfl⟩ : ∃ f, fuel = f + 1 := ⟨fuel - 1, by omega⟩
    have hs2 : Streams p (Token.MINUS :: (inner ++ k)) := hs
    have hcur : p.current = .MINUS := hs2.1
    obtain ⟨p1, heat, hs3⟩ := eat_stream hs2
    have heat2 : p.eat ("MINUS") = .ok p1 := heat
    obtain ⟨e1, p2, hfac, hs4⟩ := factor_complete inner d f p1 k (by omega) hs3
    refine ⟨.UnaryOp .MINUS e1, p2, ?_, hs4⟩
    simp only [Parser.factor, hcur, heat2, hfac]

/-- Completeness of `Parser.term`. -/
theorem term_complete : ∀ (ts : List Token) (t : TermD ts) (fuel : Nat) (p : Parser)
    (k : List Token), t.size ≤ fuel → Streams p (ts ++ k) → notMulDiv k →
    ∃ (a : AST) (p1 : Parser), Parser.term fuel p = .ok (a, p1) ∧ Streams p1 k
  | _, @TermD.mk a b f r, fuel, p, k, hf, hs, hk => by
    simp only [TermD.size] at hf
    obtain ⟨fu, rfl⟩ : ∃ fu, fuel = fu + 1 := ⟨fuel - 1, by omega⟩
    have hs2 : Streams p (a ++ (b ++ k)) := by rwa [List.append_assoc] at hs
    obtain ⟨n1, p1, hfac, hs3⟩ := factor_complete a f fu p (b ++ k) (by omega) hs2
    obtain ⟨n2, p2, hloop, hs4⟩ := termLoop_complete b r fu n1 p1 k (by omega) hs3 hk
    refine ⟨n2, p2, ?_, hs4⟩
    simp only [Parser.term, hfac, hloop]

/-- Completeness of the `term` loop. -/
theorem termLoop_complete : ∀ (tss : List Token) (r : TermRest tss) (fuel : Nat) (node : AST)
    (p : Parser) (k : List Token), r.size ≤ fuel → Streams p (tss ++ k) → notMulDiv k →
    ∃ (a : AST) (p1 : Parser), Parser.termLoop fuel node p = .ok (a, p1) ∧ Streams p1 k
  | _, .nil, fuel, node, p, k, hf, hs, hk => by
    simp only [TermRest.size] at hf
    obtain ⟨fu, rfl⟩ : ∃ fu, fuel = fu + 1 := ⟨fuel - 1, by omega⟩
    have hs2 : Streams p k := hs
    refine ⟨node, p, ?_, hs2⟩
    cases k with
    | nil =>
      have hcur : p.current = .EOF := hs2
      simp only [Parser.termLoop, hcur]
    | cons t0 rest =>
      have hcur : p.current = t0 := hs2.1
      obtain ⟨hm, hd⟩ := hk
      cases t0 with
      | MUL => exact absurd rfl hm
      | DIV => exact absurd rfl hd
      | NUMBER v => simp only [Parser.termLoop, hcur]
      | PLUS => simp only [Parser.termLoop, hcur]
      | MINUS => simp only [Parser.termLoop, hcur]
      | LPAREN => simp only [Parser.termLoop, hcur]
      | RPAREN => simp only [Parser.termLoop, hcur]
      | EOF => simp only [Parser.termLoop, hcur]
  | _, @TermRest.mul a b f r, fuel, node, p, k, hf, hs, hk => by
    simp only [TermRest.size] at hf
    obtain ⟨fu, rfl⟩ : ∃ fu, fuel = fu + 1 := ⟨fuel - 1, by omega⟩
    have hs2 : Streams p (Token.MUL :: (a ++ (b ++ k))) := by
      have he : (Token.MUL :: a ++ b) ++ k = Token.MUL :: (a ++ (b ++ k)) := by simp
      rwa [he] at hs
    have hcur : p.current = .MUL := hs2.1
    obtain ⟨p1, heat, hs3⟩ := eat_stream hs2
    have heat2 : p.eat ("MUL") = .ok p1 := heat
    obtain ⟨rhs, p2, hfac, hs4⟩ := factor_complete a f fu p1 (b ++ k) (by omega) hs3
    obtain ⟨a2, p3, hloop, hs5⟩ := termLoop_complete b r fu (.BinOp .MUL node rhs) p2 k
      (by omega) hs4 hk
    refine ⟨a2, p3, ?_, hs5⟩
    simp only [Parser.termLoop, hcur, heat2, hfac, hloop]
  | _, @TermRest.div a b f r, fuel, node, p, k, hf, hs, hk => by
    simp only [TermRest.size] at hf
    obtain ⟨fu, rfl⟩ : ∃ fu, fuel = fu + 1 := ⟨fuel - 1, by omega⟩
    have hs2 : Streams p (Token.DIV :: (a ++ (b ++ k))) := by
      have he : (Token.DIV :: a ++ b) ++ k = Token.DIV :: (a ++ (b ++ k)) := by simp
      rwa [he] at hs
    have hcur : p.current = .DIV := hs2.1
    obtain ⟨p1, heat, hs3⟩ := eat_stream hs2
    have heat2 : p.eat ("DIV") = .ok p1 := heat
    obtain ⟨rhs, p2, hfac, hs4⟩ := factor_complete a f fu p1 (b ++ k) (by omega) hs3
    obtain ⟨a2, p3, hloop, hs5⟩ := termLoop_complete b r fu (.BinOp .DIV node rhs) p2 k
      (by omega) hs4 hk
    refine ⟨a2, p3, ?_, hs5⟩
    simp only [Parser.termLoop, hcur, heat2, hfac, hloop]

/-- Completeness of `Parser.expr`. -/
theorem expr_complete : ∀ (ts : List Token) (d : ExprD ts) (fuel : Nat) (p : Parser)
    (k : List Token), d.size ≤ fuel → Streams p (ts ++ k) → notAnyOp k →
    ∃ (a : AST) (p1 : Parser), Parser.expr fuel p = .ok (a, p1) ∧ Streams p1 k
  | _, @ExprD.mk a b t r, fuel, p, k, hf, hs, hk => by
    simp only [ExprD.size] at hf
    obtain ⟨fu, rfl⟩ : ∃ fu, fuel = fu + 1 := ⟨fuel - 1, by omega⟩
    have hs2 : Streams p (a ++ (b ++ k)) := by rwa [List.append_assoc] at hs
    obtain ⟨n1, p1, hterm, hs3⟩ := term_complete a t fu p (b ++ k) (by omega) hs2
      (exprRest_notMulDiv r hk)
    obtain ⟨n2, p2, hloop, hs4⟩ := exprLoop_complete b r fu n1 p1 k (by omega) hs3 hk
    refine ⟨n2, p2, ?_, hs4⟩
    simp only [Parser.expr, hterm, hloop]

/-- Completeness of the `expr` loop. -/
theorem exprLoop_complete : ∀ (tss : List Token) (r : ExprRest tss) (fuel : Nat) (node : AST)
    (p : Parser) (k : List Token), r.size ≤ fuel → Streams p (tss ++ k) → notAnyOp k →
    ∃ (a : AST) (p1 : Parser), Parser.exprLoop fuel node p = .ok (a, p1) ∧ Streams p1 k
  | _, .nil, fuel, node, p, k, hf, hs, hk => by
    simp only [ExprRest.size] at hf
    obtain ⟨fu, rfl⟩ : ∃ fu, fuel = fu + 1 := ⟨fuel - 1, by omega⟩
    have hs2 : Streams p k := hs
    refine ⟨node, p, ?_, hs2⟩
    cases k with
    | nil =>
      have hcur : p.current = .EOF := hs2
      simp only [Parser.exprLoop, hcur]
    | cons t0 rest =>
      have hcur : p.current = t0 := hs2.1
      obtain ⟨hp, hm, hmu, hd⟩ := hk
      cases t0 with
      | PLUS => exact absurd rfl hp
      | MINUS => exact absurd rfl hm
      | NUMBER v => simp only [Parser.exprLoop, hcur]
      | MUL => simp only [Parser.exprLoop, hcur]
      | DIV => simp only [Parser.exprLoop, hcur]
      | LPAREN => simp only [Parser.exprLoop, hcur]
      | RPAREN => simp only [Parser.exprLoop, hcur]
      | EOF => simp only [Parser.exprLoop, hcur]
  | _, @ExprRest.plus a b t r, fuel, node, p, k, hf, hs, hk => by
    simp only [ExprRest.size] at hf
    obtain ⟨fu, rfl⟩ : ∃ fu, fuel = fu + 1 := ⟨fuel - 1, by omega⟩
    have hs2 : Streams p (Token.PLUS :: (a ++ (b ++ k))) := by
      have he : (Token.PLUS :: a ++ b) ++ k = Token.PLUS :: (a ++ (b ++ k)) := by simp
      rwa [he] at hs
    have hcur : p.current = .PLUS := hs2.1
    obtain ⟨p1, heat, hs3⟩ := eat_stream hs2
    have heat2 : p.eat ("PLUS") = .ok p1 := heat
    obtain ⟨rhs, p2, hterm, hs4⟩ := term_complete a t fu p1 (b ++ k) (by omega) hs3
      (exprRest_notMulDiv r hk)
    obtain ⟨a2, p3, hloop, hs5⟩ := exprLoop_complete b r fu (.BinOp .PLUS node rhs) p2 k
      (by omega) hs4 hk
    refine ⟨a2, p3, ?_, hs5⟩
    simp only [Parser.exprLoop, hcur, heat2, hterm, hloop]
  | _, @ExprRest.minus a b t r, fuel, node, p, k, hf, hs, hk => by
    simp only [ExprRest.size] at hf
    obtain ⟨fu, rfl⟩ : ∃ fu, fuel = fu + 1 := ⟨fuel - 1, by omega⟩
    have hs2 : Streams p (Token.MINUS :: (a ++ (b ++ k))) := by
      have he : (Token.MINUS :: a ++ b) ++ k = Token.MINUS :: (a ++ (b ++ k)) := by simp
      rwa [he] at hs
    have hcur : p.current = .MINUS := hs2.1
    obtain ⟨p1, heat, hs3⟩ := eat_stream hs2
    have heat2 : p.eat ("MINUS") = .ok p1 := heat
    obtain ⟨rhs, p2, hterm, hs4⟩ := term_complete a t fu p1 (b ++ k) (by omega) hs3
      (exprRest_notMulDiv r hk)
    obtain ⟨a2, p3, hloop, hs5⟩ := exprLoop_complete b r fu (.BinOp .MINUS node rhs) p2 k
      (by omega) hs4 hk
    refine ⟨a2, p3, ?_, hs5⟩
    simp only [Parser.exprLoop, hcur, heat2, hterm, hloop]

end

mutual

/-- Size bound for factor derivations. -/
theorem factorD_size_le : ∀ (ts : List Token) (d : FactorD ts), d.size + 3 ≤ 5 * ts.length
  | _, .num v => by simp [FactorD.size]
  | _, @FactorD.paren inner d => by
    have h := exprD_size_le inner d
    simp only [FactorD.size, List.length_append, List.length_cons, List.length_nil]
    omega
  | _, @FactorD.uplus inner d => by
    have h := factorD_size_le inner d
    simp only [FactorD.size, List.length_cons]
    omega
  | _, @FactorD.uminus inner d => by
    have h := factorD_size_le inner d
    simp only [FactorD.size, List.length_cons]
    omega

/-- Size bound for term-rest derivations. -/
theorem termRestD_size_le : ∀ (ts : List Token) (r : TermRest ts), r.size ≤ 5 * ts.length + 1
  | _, .nil => by simp [TermRest.size]
  | _, @TermRest.mul a b f r => by
    have h1 := factorD_size_le a f
    have h2 := termRestD_size_le b r
    simp only [TermRest.size, List.length_cons, List.length_append]
    omega
  | _, @TermRest.div a b f r => by
    have h1 := factorD_size_le a f
    have h2 := termRestD_size_le b r
    simp only [TermRest.size, List.length_cons, List.length_append]
    omega

/-- Size bound for term derivations. -/
theorem termD_size_le : ∀ (ts : List Token) (t : TermD ts), t.size + 1 ≤ 5 * ts.length
  | _, @TermD.mk a b f r => by
    have h1 := factorD_size_le a f
    have h2 := termRestD_size_le b r
    simp only [TermD.size, List.length_append]
    omega

/-- Size bound for expr-rest derivations. -/
theorem exprRestD_size_le : ∀ (ts : List Token) (r : ExprRest ts), r.size ≤ 5 * ts.length + 1
  | _, .nil => by simp [ExprRest.size]
  | _, @ExprRest.plus a b t r => by
    have h1 := termD_size_le a t
    have h2 := exprRestD_size_le b r
    simp only [ExprRest.size, List.length_cons, List.length_append]
    omega
  | _, @ExprRest.minus a b t r => by
    have h1 := termD_size_le a t
    have h2 := exprRestD_size_le b r
    simp only [ExprRest.size, List.length_cons, List.length_append]
    omega

/-- Size bound for expr derivations: the parse fuel `5·|tokens| + 1`
suffices. -/
theorem exprD_size_le : ∀ (ts : List Token) (d : ExprD ts), d.size ≤ 5 * ts.length + 1
  | _, @ExprD.mk a b t r => by
    have h1 := termD_size_le a t
    have h2 := exprRestD_size_le b r
    simp only [ExprD.size, List.length_append]
    omega

end

/-- Claim C5: for every syntactically valid input (one whose token
sequence derives `expr` with no trailing tokens), compilation succeeds in
both output modes, and in the emitted instruction sequence every register
operand was defined by an earlier instruction (no forward references). -/
theorem C5 (text : String) (pr : Bool) (h : ValidExpr text) :
    ∃ ast : AST, Parser.parse text = .ok ast ∧
      compile_to_ir text pr = .ok (IRGen.build_module pr ast) ∧
      DefBeforeUse (IRGen.gen ast ⟨[], 0⟩).2.lines := by
  obtain ⟨ts, ⟨d⟩, p0, hinit, hstream⟩ := h
  have hsize := exprD_size_le ts d
  have hlen : ts.length ≤ text.length + 1 := by
    cases ts with
    | nil => simp
    | cons t rest =>
      obtain ⟨hcur, hlex⟩ := hstream
      have hL := lexStream_length hlex
      have htext : p0.lexer.text = text.data := by
        cases hg : Lexer.get_next_token (Lexer.mkInit text) with
        | error e =>
          simp only [Parser.mkInit, hg] at hinit
          cases hinit
        | ok pr0 =>
          obtain ⟨t0, l0⟩ := pr0
          simp only [Parser.mkInit, hg, Except.ok.injEq] at hinit
          rw [← hinit]
          exact (get_next_token_ok hg).1
      rw [htext] at hL
      have hx : text.length = text.data.length := rfl
      simp only [List.length_cons]
      omega
  have hfuel : d.size ≤ parseFuel text := by
    simp only [parseFuel]
    omega
  have hsapp : Streams p0 (ts ++ []) := by rwa [List.append_nil]
  obtain ⟨ast, p1, hexpr, hs1⟩ := expr_complete ts d (parseFuel text) p0 [] hfuel hsapp trivial
  have hcur1 : p1.current = .EOF := hs1
  have hparse : Parser.parse text = .ok ast := by
    simp [Parser.parse, hinit, hexpr, hcur1, Token.type]
  refine ⟨ast, hparse, ?_, linesOk_defBeforeUse _ (gen_linesOk0 ast)⟩
  simp only [compile_to_ir, hparse]

/-- Witness for claim C5 at the concrete valid input `"1+2*3"`, with its
explicit grammar derivation and token stream. -/
theorem C5_witness :
    ∃ ast : AST, Parser.parse ("1+2*3") = .ok ast ∧
      compile_to_ir ("1+2*3") true = .ok (IRGen.build_module true ast) ∧
      DefBeforeUse (IRGen.gen ast ⟨[], 0⟩).2.lines := by
  apply C5 ("1+2*3") true
  refine ⟨[.NUMBER 1, .PLUS, .NUMBER 2, .MUL, .NUMBER 3], ⟨?_⟩,
    ⟨⟨("1+2*3").data, 1⟩, .NUMBER 1⟩, by rfl, ?_⟩
  · exact ExprD.mk (TermD.mk (FactorD.num 1) TermRest.nil)
      (ExprRest.plus (TermD.mk (FactorD.num 2) (TermRest.mul (FactorD.num 3) TermRest.nil))
        ExprRest.nil)
  · refine ⟨rfl, ?_⟩
    refine LexStream.cons (by rfl) (by decide) ?_
    refine LexStream.cons (by rfl) (by decide) ?_
    refine LexStream.cons (by rfl) (by decide) ?_
    refine LexStream.cons (by rfl) (by decide) ?_
    exact LexStream.nil (by rfl)
